import Mathlib

/-!
# Help output of mmake (`help/help.go`)

A shallow embedding of `help/help.go` together with the standard-library
routines it calls, followed by theorems about the three render functions.

Modelling conventions.

* A Go `string` is a Lean `String`, i.e. valid UTF-8 text.  `len(s)` is the
  number of bytes of the UTF-8 encoding (`String.utf8ByteSize`), the width
  directive of `fmt` counts runes (`String.length`), and Go's `<` on strings
  (byte-wise lexicographic) coincides on valid UTF-8 with the lexicographic
  order on code points (`stringLess`).
* The `io.Writer` is the text written so far; `fmt.Fprintf` appends to it
  (the source ignores the values `Fprintf` returns).  The verbs of `fmt` are
  modelled as documented: `%-*s` pads on the right to the width given as
  argument.
* The `io.Reader` is the text to be read.  The parser lives in another
  package and is a parameter of the model.
* `sort.Sort` is the pattern-defeating quicksort of the Go standard library
  (Go 1.19 and later), embedded over the three methods of `byTarget`.  Loops
  are structural recursions; a loop without a syntactic bound takes a fuel
  argument, and the theorems show that the fuel given suffices.
-/

namespace Help

/-! ## Data model -/

/-- Modelled from the spec: the declaration of `parser.Comment`, a comment
with the target it is attached to (empty when it is attached to none). -/
structure Comment where
  Target : String
  Value : String
deriving DecidableEq, Repr, Inhabited

/-- Modelled from the spec: the declaration of `parser.Node`; the variants
other than `Comment` are ignored by this package. -/
inductive Node where
  | comment (c : Comment)
  | other
deriving DecidableEq, Repr

/-- Go `error` values: an error produced by the parser, or the result of
`errors.Wrap(cause, message)`. -/
inductive GoError where
  | failure (msg : String)
  | wrapped (cause : GoError) (message : String)
deriving DecidableEq, Repr

/-- `errors.Wrap(err, message)` for a non-nil `err`. -/
def Wrap (err : GoError) (message : String) : GoError :=
  GoError.wrapped err message

/-- Modelled from the spec: the signature of `parser.ParseRecursive(r, dir)`,
from the text of the reader and the include directory to nodes or an error. -/
abbrev Parser := String → String → Except GoError (List Node)

/-! ## Strings and formatting -/

/-- Go's `s < t` on strings, as the lexicographic order on code points. -/
def stringLess : List Char → List Char → Bool
  | _, [] => false
  | [], _ :: _ => true
  | a :: as, b :: bs =>
    if a.toNat < b.toNat then true
    else if b.toNat < a.toNat then false
    else stringLess as bs

/-- Go's `len(s)`: the number of bytes of `s`. -/
def len (s : String) : Nat :=
  s.utf8ByteSize

/-- Splitting of a character sequence at every occurrence of `sep`. -/
def splitChars (sep : Char) : List Char → List (List Char)
  | [] => [[]]
  | c :: cs =>
    if c = sep then [] :: splitChars sep cs
    else
      match splitChars sep cs with
      | [] => [[c]]
      | l :: ls => (c :: l) :: ls

/-- The call `strings.Split(s, sep)` for a one-character separator. -/
def Split (s : String) (sep : Char) : List String :=
  (splitChars sep s.data).map String.mk

/-- The call `strings.Replace(s, old, new, -1)` for a one-character `old`:
every occurrence is replaced. -/
def Replace (s : String) (old : Char) (new : String) : String :=
  String.mk (s.data.flatMap fun c => if c = old then new.data else [c])

/-- The verb `%-*s` of `fmt`: `s` followed by spaces up to `wid` runes. -/
def padString (wid : Nat) (s : String) : String :=
  s ++ String.mk (List.replicate (wid - s.length) ' ')

/-- The call `fmt.Fprintf(w, ...)`, with the formatted text as argument. -/
def Fprintf (w : String) (text : String) : String :=
  w ++ text

/-- First line of `s`. -/
def firstLine (s : String) : String :=
  (Split s '\n').getD 0 ""

/-- Indent the given string. -/
def indent (s : String) : String :=
  Replace ("  " ++ s) '\n' "\n  "

/-! ## `byTarget` and `sort.Sort` -/

/-- The method `byTarget.Len`. -/
def Len (v : List Comment) : Nat :=
  v.length

/-- The method `byTarget.Swap`. -/
def Swap (v : List Comment) (i j : Nat) : List Comment :=
  (v.set i (v.getD j default)).set j (v.getD i default)

/-- The method `byTarget.Less`. -/
def Less (v : List Comment) (i j : Nat) : Bool :=
  stringLess (v.getD i default).Target.data (v.getD j default).Target.data

/-- The inner loop of `insertionSort`:
`for j := i; j > a && data.Less(j, j-1); j-- { data.Swap(j, j-1) }`. -/
def insertionSort.shift (a : Nat) : Nat → List Comment → List Comment
  | 0, v => v
  | j + 1, v =>
    if a < j + 1 && Less v (j + 1) j then insertionSort.shift a j (Swap v (j + 1) j)
    else v

/-- The function `insertionSort(data, a, b)` of package `sort`. -/
def insertionSort (data : List Comment) (a b : Nat) : List Comment :=
  (List.range' (a + 1) (b - (a + 1))).foldl (fun v i => insertionSort.shift a i v) data

/-- The loop of `siftDown`, with `root` as loop variable. -/
def siftDown.loop (hi first : Nat) : Nat → Nat → List Comment → List Comment
  | 0, _, v => v
  | fuel + 1, root, v =>
    let child := 2 * root + 1
    if hi ≤ child then v
    else
      let child :=
        if child + 1 < hi && Less v (first + child) (first + child + 1) then child + 1
        else child
      if !Less v (first + root) (first + child) then v
      else siftDown.loop hi first fuel child (Swap v (first + root) (first + child))

/-- The function `siftDown(data, lo, hi, first)` of package `sort`. -/
def siftDown (data : List Comment) (lo hi first : Nat) : List Comment :=
  siftDown.loop hi first hi lo data

/-- The function `heapSort(data, a, b)` of package `sort`. -/
def heapSort (data : List Comment) (a b : Nat) : List Comment :=
  let first := a
  let lo := 0
  let hi := b - a
  let data :=
    (List.range ((hi - 1) / 2 + 1)).reverse.foldl (fun v i => siftDown v i hi first) data
  (List.range hi).reverse.foldl (fun v i => siftDown (Swap v first (first + i)) lo i first) data

/-- The type `sortedHint` of package `sort`. -/
inductive sortedHint where
  | unknownHint
  | increasingHint
  | decreasingHint
deriving DecidableEq, Repr

/-- The function `order2(data, a, b, swaps)`; the counter is returned. -/
def order2 (data : List Comment) (a b swaps : Nat) : Nat × Nat × Nat :=
  if Less data b a then (b, a, swaps + 1) else (a, b, swaps)

/-- The function `median(data, a, b, c, swaps)`; the counter is returned. -/
def median (data : List Comment) (a b c swaps : Nat) : Nat × Nat :=
  let r1 := order2 data a b swaps
  let r2 := order2 data r1.2.1 c r1.2.2
  let r3 := order2 data r1.1 r2.1 r2.2.2
  (r3.2.1, r3.2.2)

/-- The function `medianAdjacent(data, a, swaps)`; the counter is returned. -/
def medianAdjacent (data : List Comment) (a swaps : Nat) : Nat × Nat :=
  median data (a - 1) a (a + 1) swaps

/-- The function `choosePivot(data, a, b)` of package `sort`. -/
def choosePivot (data : List Comment) (a b : Nat) : Nat × sortedHint :=
  let shortestNinther := 50
  let maxSwaps := 4 * 3
  let l := b - a
  let i := a + l / 4 * 1
  let j := a + l / 4 * 2
  let k := a + l / 4 * 3
  let r :=
    if 8 ≤ l then
      if shortestNinther ≤ l then
        let ri := medianAdjacent data i 0
        let rj := medianAdjacent data j ri.2
        let rk := medianAdjacent data k rj.2
        median data ri.1 rj.1 rk.1 rk.2
      else median data i j k 0
    else (j, 0)
  if r.2 = 0 then (r.1, sortedHint.increasingHint)
  else if r.2 = maxSwaps then (r.1, sortedHint.decreasingHint)
  else (r.1, sortedHint.unknownHint)

/-- The loop of `reverseRange`: `for i < j { data.Swap(i, j); i++; j-- }`. -/
def reverseRange.loop : Nat → Nat → Nat → List Comment → List Comment
  | 0, _, _, v => v
  | fuel + 1, i, j, v =>
    if i < j then reverseRange.loop fuel (i + 1) (j - 1) (Swap v i j) else v

/-- The function `reverseRange(data, a, b)` of package `sort`. -/
def reverseRange (data : List Comment) (a b : Nat) : List Comment :=
  reverseRange.loop (b - a) a (b - 1) data

/-- The method `Next` of `xorshift`, on 64-bit words. -/
def xorshiftNext (r : Nat) : Nat :=
  let r := (r ^^^ (r <<< 13)) % 2 ^ 64
  let r := r ^^^ (r >>> 7)
  (r ^^^ (r <<< 17)) % 2 ^ 64

/-- The function `bits.Len(x)`: the number of bits needed to write `x`. -/
def bitsLen (x : Nat) : Nat :=
  if x = 0 then 0 else Nat.log2 x + 1

/-- The function `nextPowerOfTwo(length)` of package `sort`. -/
def nextPowerOfTwo (length : Nat) : Nat :=
  1 <<< bitsLen length

/-- The function `breakPatterns(data, a, b)` of package `sort`. -/
def breakPatterns (data : List Comment) (a b : Nat) : List Comment :=
  let length := b - a
  if 8 ≤ length then
    let modulus := nextPowerOfTwo length
    let idx := a + (length / 4) * 2 - 1
    let step := fun (st : Nat × List Comment) (i : Nat) =>
      let random := xorshiftNext st.1
      let other := random &&& (modulus - 1)
      let other := if length ≤ other then other - length else other
      (random, Swap st.2 (idx + i) (a + other))
    ((List.range 3).foldl step (length, data)).2
  else data

/-- The scan `for i < b && !data.Less(i, i-1) { i++ }` of
`partialInsertionSort`; the final `i` is returned. -/
def partialInsertionSort.scan (v : List Comment) (b : Nat) : Nat → Nat → Nat
  | 0, i => i
  | fuel + 1, i =>
    if i < b && !Less v i (i - 1) then partialInsertionSort.scan v b fuel (i + 1) else i

/-- The loop `for j := i - 1; j >= 1; j-- { if !data.Less(j, j-1) { break };
data.Swap(j, j-1) }` of `partialInsertionSort`. -/
def partialInsertionSort.shiftLeft : Nat → List Comment → List Comment
  | 0, v => v
  | j + 1, v =>
    if !Less v (j + 1) j then v else partialInsertionSort.shiftLeft j (Swap v (j + 1) j)

/-- The loop `for j := i + 1; j < b; j++ { if !data.Less(j, j-1) { break };
data.Swap(j, j-1) }` of `partialInsertionSort`. -/
def partialInsertionSort.shiftRight (b : Nat) : Nat → Nat → List Comment → List Comment
  | 0, _, v => v
  | fuel + 1, j, v =>
    if j < b then
      if !Less v j (j - 1) then v
      else partialInsertionSort.shiftRight b fuel (j + 1) (Swap v j (j - 1))
    else v

/-- The outer loop of `partialInsertionSort`, `steps` iterations being left. -/
def partialInsertionSort.loop (a b : Nat) : Nat → Nat → List Comment → List Comment × Bool
  | 0, _, v => (v, false)
  | steps + 1, i, v =>
    let shortestShifting := 50
    let i := partialInsertionSort.scan v b (b - i) i
    if i = b then (v, true)
    else if b - a < shortestShifting then (v, false)
    else
      let v := Swap v i (i - 1)
      let v := if 2 ≤ i - a then partialInsertionSort.shiftLeft (i - 1) v else v
      let v := if 2 ≤ b - i then partialInsertionSort.shiftRight b (b - (i + 1)) (i + 1) v else v
      partialInsertionSort.loop a b steps i v

/-- The function `partialInsertionSort(data, a, b)` of package `sort`. -/
def partialInsertionSort (data : List Comment) (a b : Nat) : List Comment × Bool :=
  let maxSteps := 5
  partialInsertionSort.loop a b maxSteps (a + 1) data

/-- The scan `for i <= j && data.Less(i, a) { i++ }` of `partition`. -/
def partition.scanUp (v : List Comment) (a j : Nat) : Nat → Nat → Nat
  | 0, i => i
  | fuel + 1, i => if i ≤ j && Less v i a then partition.scanUp v a j fuel (i + 1) else i

/-- The scan `for i <= j && !data.Less(j, a) { j-- }` of `partition`. -/
def partition.scanDown (v : List Comment) (a i : Nat) : Nat → Nat
  | 0 => 0
  | j + 1 => if i ≤ j + 1 && !Less v (j + 1) a then partition.scanDown v a i j else j + 1

/-- The second loop of `partition`; the final `j` is returned. -/
def partition.loop (a : Nat) : Nat → Nat → Nat → List Comment → List Comment × Nat
  | 0, _, j, v => (v, j)
  | fuel + 1, i, j, v =>
    let i := partition.scanUp v a j (j + 1 - i) i
    let j := partition.scanDown v a i j
    if j < i then (v, j)
    else partition.loop a fuel (i + 1) (j - 1) (Swap v i j)

/-- The function `partition(data, a, b, pivot)` of package `sort`. -/
def partition (data : List Comment) (a b pivot : Nat) : List Comment × Nat × Bool :=
  let v := Swap data a pivot
  let i := a + 1
  let j := b - 1
  let i := partition.scanUp v a j (j + 1 - i) i
  let j := partition.scanDown v a i j
  if j < i then (Swap v j a, j, true)
  else
    let v := Swap v i j
    let r := partition.loop a (b - a) (i + 1) (j - 1) v
    (Swap r.1 r.2 a, r.2, false)

/-- The scan `for i <= j && !data.Less(a, i) { i++ }` of `partitionEqual`. -/
def partitionEqual.scanUp (v : List Comment) (a j : Nat) : Nat → Nat → Nat
  | 0, i => i
  | fuel + 1, i =>
    if i ≤ j && !Less v a i then partitionEqual.scanUp v a j fuel (i + 1) else i

/-- The scan `for i <= j && data.Less(a, j) { j-- }` of `partitionEqual`. -/
def partitionEqual.scanDown (v : List Comment) (a i : Nat) : Nat → Nat
  | 0 => 0
  | j + 1 => if i ≤ j + 1 && Less v a (j + 1) then partitionEqual.scanDown v a i j else j + 1

/-- The loop of `partitionEqual`; the final `i` is returned. -/
def partitionEqual.loop (a : Nat) : Nat → Nat → Nat → List Comment → List Comment × Nat
  | 0, i, _, v => (v, i)
  | fuel + 1, i, j, v =>
    let i := partitionEqual.scanUp v a j (j + 1 - i) i
    let j := partitionEqual.scanDown v a i j
    if j < i then (v, i)
    else partitionEqual.loop a fuel (i + 1) (j - 1) (Swap v i j)

/-- The function `partitionEqual(data, a, b, pivot)` of package `sort`. -/
def partitionEqual (data : List Comment) (a b pivot : Nat) : List Comment × Nat :=
  let v := Swap data a pivot
  partitionEqual.loop a (b - a) (a + 1) (b - 1) v

/-- The function `pdqsort(data, a, b, limit)` of package `sort`.  The loop of
the source and its recursive call both take one unit of `fuel`; the loop
variables `wasBalanced` and `wasPartitioned` are arguments. -/
def pdqsort : Nat → List Comment → Nat → Nat → Nat → Bool → Bool → List Comment
  | 0, data, _, _, _, _, _ => data
  | fuel + 1, data, a, b, limit, wasBalanced, wasPartitioned =>
    let maxInsertion := 12
    let length := b - a
    if length ≤ maxInsertion then insertionSort data a b
    else if limit = 0 then heapSort data a b
    else
      let data := if !wasBalanced then breakPatterns data a b else data
      let limit := if !wasBalanced then limit - 1 else limit
      let ph := choosePivot data a b
      let decreasing := decide (ph.2 = sortedHint.decreasingHint)
      let data := if decreasing then reverseRange data a b else data
      let pivot := if decreasing then (b - 1) - (ph.1 - a) else ph.1
      let hint := if decreasing then sortedHint.increasingHint else ph.2
      let tried :=
        if wasBalanced && wasPartitioned && decide (hint = sortedHint.increasingHint) then
          partialInsertionSort data a b
        else (data, false)
      if tried.2 then tried.1
      else
        let data := tried.1
        if 0 < a && !Less data (a - 1) pivot then
          let r := partitionEqual data a b pivot
          pdqsort fuel r.1 r.2 b limit wasBalanced wasPartitioned
        else
          let r := partition data a b pivot
          let data := r.1
          let mid := r.2.1
          let wasPartitioned := r.2.2
          let leftLen := mid - a
          let rightLen := b - mid
          let balanceThreshold := length / 8
          if leftLen < rightLen then
            let wasBalanced := decide (balanceThreshold ≤ leftLen)
            let data := pdqsort fuel data a mid limit true true
            pdqsort fuel data (mid + 1) b limit wasBalanced wasPartitioned
          else
            let wasBalanced := decide (balanceThreshold ≤ rightLen)
            let data := pdqsort fuel data (mid + 1) b limit true true
            pdqsort fuel data a mid limit wasBalanced wasPartitioned

/-- The function `sort.Sort(data)` (`Sort` is reserved in Lean). -/
def sortSort (data : List Comment) : List Comment :=
  let n := Len data
  if n ≤ 1 then data
  else
    let limit := bitsLen n
    pdqsort n data 0 n limit true true

/-! ## `help.go` -/

/-- Filter comment nodes. -/
def filterComments (nodes : List Node) : List Comment :=
  nodes.foldl (fun comments n =>
    match n with
    | Node.comment c => comments ++ [c]
    | Node.other => comments) []

/-- Target width from the given comments. -/
def targetWidth (comments : List Comment) : Nat :=
  comments.foldl (fun n c => if len c.Target > n then len c.Target else n) 0

/-- The function `getComments` parses, filters, and sorts all comment nodes. -/
def getComments (ParseRecursive : Parser) (r : String) : Except GoError (List Comment) :=
  match ParseRecursive r "/usr/local/include" with
  | Except.error err => Except.error (Wrap err "parsing")
  | Except.ok nodes =>
    let comments := filterComments nodes
    Except.ok (sortSort comments)

/-- The function `OutputAllShort` outputs all short help representations to
the given writer; the writer afterwards and the error are returned. -/
def OutputAllShort (ParseRecursive : Parser) (r : String) (w : String) :
    String × Option GoError :=
  match getComments ParseRecursive r with
  | Except.error err => (w, some err)
  | Except.ok comments =>
    let width := targetWidth comments
    let w := Fprintf w "\n"
    let w := comments.foldl (fun w c =>
      if c.Target = "" then w
      else
        Fprintf w ("  " ++ padString (width + 2) c.Target ++ " " ++ firstLine c.Value ++ "\n")) w
    let w := Fprintf w "\n"
    (w, none)

/-- The function `OutputAllLong` outputs all long help representations to the
given writer; the writer afterwards and the error are returned. -/
def OutputAllLong (ParseRecursive : Parser) (r : String) (w : String) :
    String × Option GoError :=
  match getComments ParseRecursive r with
  | Except.error err => (w, some err)
  | Except.ok comments =>
    let w := Fprintf w "\n"
    let w := comments.foldl (fun w c =>
      if c.Target = "" then w
      else Fprintf w ("  " ++ c.Target ++ ":\n" ++ indent (indent c.Value) ++ "\n\n")) w
    let w := Fprintf w "\n"
    (w, none)

/-- The function `OutputTargetLong` outputs the long help representation of
the given target; the writer afterwards and the error are returned. -/
def OutputTargetLong (ParseRecursive : Parser) (r : String) (w : String) (target : String) :
    String × Option GoError :=
  match getComments ParseRecursive r with
  | Except.error err => (w, some err)
  | Except.ok comments =>
    let w := Fprintf w "\n"
    let w := comments.foldl (fun w c =>
      if c.Target ≠ target then w
      else Fprintf w (indent c.Value ++ "\n")) w
    let w := Fprintf w "\n"
    (w, none)

/-! ## Vocabulary of the statements and of the proofs -/

/-- The target of the comment at index `i`. -/
def keyAt (v : List Comment) (i : Nat) : String :=
  (v.getD i default).Target

/-- The list `v'` is `v` with the entries of `[a, b)` rearranged. -/
def Keeps (v v' : List Comment) (a b : Nat) : Prop :=
  v'.Perm v ∧ ∀ k, k < a ∨ b ≤ k → v'[k]? = v[k]?

/-- The entries of `[a, b)` are in ascending order of target. -/
def SortedOn (v : List Comment) (a b : Nat) : Prop :=
  ∀ i j, a ≤ i → i < j → j < b → keyAt v i ≤ keyAt v j

/-- The node `p` of the heap of size `hi` stored from index `first` is at
least as large as its children. -/
def HeapAt (v : List Comment) (first hi p : Nat) : Prop :=
  (2 * p + 1 < hi → keyAt v (first + (2 * p + 1)) ≤ keyAt v (first + p)) ∧
    (2 * p + 2 < hi → keyAt v (first + (2 * p + 2)) ≤ keyAt v (first + p))

/-- The child of `root` that `siftDown` compares with `root`. -/
def largerChild (v : List Comment) (first hi root : Nat) : Nat :=
  if 2 * root + 1 + 1 < hi && Less v (first + (2 * root + 1)) (first + (2 * root + 1) + 1) then
    2 * root + 1 + 1
  else 2 * root + 1

/-- Upward scan while the entry satisfies `low`. -/
def scanUpG (low : Nat → Bool) (j : Nat) : Nat → Nat → Nat
  | 0, i => i
  | fuel + 1, i => if i ≤ j && low i then scanUpG low j fuel (i + 1) else i

/-- Downward scan while the entry does not satisfy `low`. -/
def scanDownG (low : Nat → Bool) (i : Nat) : Nat → Nat
  | 0 => 0
  | j + 1 => if i ≤ j + 1 && !low (j + 1) then scanDownG low i j else j + 1

/-- The scan-and-swap loop; the final `i` and `j` are returned. -/
def loopG (low : List Comment → Nat → Bool) :
    Nat → Nat → Nat → List Comment → List Comment × Nat × Nat
  | 0, i, j, v => (v, i, j)
  | fuel + 1, i, j, v =>
    if scanDownG (low v) (scanUpG (low v) j (j + 1 - i) i) j < scanUpG (low v) j (j + 1 - i) i then
      (v, scanUpG (low v) j (j + 1 - i) i, scanDownG (low v) (scanUpG (low v) j (j + 1 - i) i) j)
    else
      loopG low fuel (scanUpG (low v) j (j + 1 - i) i + 1)
        (scanDownG (low v) (scanUpG (low v) j (j + 1 - i) i) j - 1)
        (Swap v (scanUpG (low v) j (j + 1 - i) i)
          (scanDownG (low v) (scanUpG (low v) j (j + 1 - i) i) j))

/-- The state of the scan-and-swap loop: the entries of `[a+1, i)` are low,
those of `(j, b)` are not. -/
def PartInv (low : List Comment → Nat → Bool) (v : List Comment) (a b i j : Nat) : Prop :=
  a + 1 ≤ i ∧ i ≤ j + 1 ∧ j + 1 ≤ b ∧ (∀ k, a + 1 ≤ k → k < i → low v k = true) ∧
    (∀ k, j < k → k < b → low v k = false)

/-- Every entry of `[a, b)` is at least the entry before the range. -/
def LowerBound (v : List Comment) (a b : Nat) : Prop :=
  0 < a → ∀ k, a ≤ k → k < b → keyAt v (a - 1) ≤ keyAt v k

/-- The list `v` is `data` with the range `[a, b)` sorted. -/
def Sorts (data : List Comment) (a b : Nat) (v : List Comment) : Prop :=
  Keeps data v a b ∧ SortedOn v a b

/-- The comments among the nodes, in their order. -/
def commentsOf (nodes : List Node) : List Comment :=
  nodes.filterMap fun n =>
    match n with
    | Node.comment c => some c
    | Node.other => none

/-- Concatenation of the given pieces of text. -/
def concatAll : List String → String
  | [] => ""
  | s :: l => s ++ concatAll l

/-- A run of `n` spaces. -/
def spaces (n : Nat) : String :=
  String.mk (List.replicate n ' ')

/-- The length in bytes of the longest target. -/
def longestTarget (cs : List Comment) : Nat :=
  (cs.map fun c => len c.Target).foldr max 0

/-- The body of the loop of `filterComments`. -/
def filterStep (comments : List Comment) (n : Node) : List Comment :=
  match n with
  | Node.comment c => comments ++ [c]
  | Node.other => comments

/-- The nodes without the comments whose target is empty. -/
def removeEmpty (nodes : List Node) : List Node :=
  nodes.filter fun n =>
    match n with
    | Node.comment c => c.Target ≠ ""
    | Node.other => true

/-- Thirteen comments: one for `b`, eleven for `a`, one without target. -/
def tieNodes : List Node :=
  [Node.comment ⟨"b", "0"⟩, Node.comment ⟨"a", "1"⟩, Node.comment ⟨"a", "2"⟩,
    Node.comment ⟨"a", "3"⟩, Node.comment ⟨"a", "4"⟩, Node.comment ⟨"a", "5"⟩,
    Node.comment ⟨"a", "6"⟩, Node.comment ⟨"a", "7"⟩, Node.comment ⟨"a", "8"⟩,
    Node.comment ⟨"a", "9"⟩, Node.comment ⟨"a", "10"⟩, Node.comment ⟨"a", "11"⟩,
    Node.comment ⟨"", "12"⟩]

/-- A parser that returns the nodes `tieNodes`. -/
def parseTies : Parser :=
  fun _ _ => Except.ok tieNodes

/-- A parser that returns the nodes `tieNodes` without the comment that has
no target. -/
def parseTiesQualifying : Parser :=
  fun _ _ => Except.ok (removeEmpty tieNodes)

/-- The comments `clean` and `build`, a comment without target and a node
that is no comment. -/
def withFloating : List Node :=
  [Node.comment ⟨"clean", "Removes artifacts."⟩, Node.comment ⟨"", "Not for a target."⟩,
    Node.other, Node.comment ⟨"build", "Builds the project.\nSee docs."⟩]

/-- A parser that returns the nodes `withFloating`. -/
def parseWithFloating : Parser :=
  fun _ _ => Except.ok withFloating

/-- A parser that returns the nodes `withFloating` without the comment that
has no target. -/
def parseWithoutFloating : Parser :=
  fun _ _ => Except.ok (removeEmpty withFloating)

/-- Two comments for the target `a`. -/
def twoA : List Comment :=
  [⟨"a", "1"⟩, ⟨"a", "2"⟩]

/-- A parser that returns the two comments `twoA`. -/
def parseTwoA : Parser :=
  fun _ _ => Except.ok (twoA.map Node.comment)

/-- A parser that returns one comment without target. -/
def parseFloating : Parser :=
  fun _ _ => Except.ok [Node.comment ⟨"", "x"⟩]

/-- A parser that fails. -/
def parseFailure : Parser :=
  fun _ _ => Except.error (GoError.failure "syntax error")

/-- The two comments `build` and `clean` of the example. -/
def buildClean : List Node :=
  [Node.comment ⟨"build", "Builds the project.\nSee docs."⟩,
    Node.comment ⟨"clean", "Removes artifacts."⟩]

/-- A parser that returns the nodes `buildClean`. -/
def parseBuildClean : Parser :=
  fun _ _ => Except.ok buildClean

/-- The comments `clean` and `build`, in this order. -/
def cleanBuild : List Node :=
  [Node.comment ⟨"clean", "Removes artifacts."⟩,
    Node.comment ⟨"build", "Builds the project.\nSee docs."⟩]

/-- A parser that returns the nodes `cleanBuild`. -/
def parseCleanBuild : Parser :=
  fun _ _ => Except.ok cleanBuild

/-! ## Order on targets -/

theorem stringLess_iff_lex (s t : List Char) :
    stringLess s t = true ↔ List.Lex (fun a b : Char => a < b) s t := by
  induction s generalizing t with
  | nil =>
    cases t with
    | nil => simp [stringLess, List.Lex.not_nil_right]
    | cons b bs => simp [stringLess, List.Lex.nil]
  | cons a as ih =>
    cases t with
    | nil => simp [stringLess, List.Lex.not_nil_right]
    | cons b bs =>
      have hlt : ∀ x y : Char, x.toNat < y.toNat ↔ x < y := fun x y => Iff.rfl
      unfold stringLess
      by_cases h1 : a.toNat < b.toNat
      · simp only [h1, if_true, true_iff]
        exact List.Lex.rel ((hlt a b).1 h1)
      · by_cases h2 : b.toNat < a.toNat
        · simp only [h1, h2, if_true, if_false, Bool.false_eq_true, false_iff]
          intro h
          cases h with
          | cons h' => omega
          | rel h' => exact h1 ((hlt a b).2 h')
        · have hab : a = b := by
            apply Char.ext
            apply UInt32.ext
            show a.toNat = b.toNat
            omega
          subst hab
          simp only [h1, if_false, ih]
          exact (List.Lex.cons_iff).symm

theorem stringLess_iff (s t : String) : stringLess s.data t.data = true ↔ s < t := by
  rw [stringLess_iff_lex, String.lt_iff_toList_lt]
  exact Iff.rfl

theorem Less_iff (v : List Comment) (i j : Nat) : Less v i j = true ↔ keyAt v i < keyAt v j := by
  unfold Less keyAt
  exact stringLess_iff _ _

theorem Less_false_iff (v : List Comment) (i j : Nat) :
    Less v i j = false ↔ keyAt v j ≤ keyAt v i := by
  rw [← not_lt, ← Less_iff]
  simp

/-! ## Swap -/

theorem Swap_length (v : List Comment) (i j : Nat) : (Swap v i j).length = v.length := by
  simp [Swap]

theorem getD_Swap_left (v : List Comment) {i j : Nat} (hi : i < v.length) (hj : j < v.length) :
    (Swap v i j).getD i default = v.getD j default := by
  unfold Swap
  by_cases h : i = j
  · subst h
    simp [List.getD_eq_getElem?_getD, List.getElem?_set, hi]
  · simp [List.getD_eq_getElem?_getD, List.getElem?_set, hi, hj, h, Ne.symm h]

theorem getD_Swap_right (v : List Comment) {i j : Nat} (hi : i < v.length) (hj : j < v.length) :
    (Swap v i j).getD j default = v.getD i default := by
  unfold Swap
  simp [List.getD_eq_getElem?_getD, List.getElem?_set, hi, hj]

theorem getD_Swap_of_ne (v : List Comment) {i j k : Nat} (hi : k ≠ i) (hj : k ≠ j) :
    (Swap v i j).getD k default = v.getD k default := by
  unfold Swap
  simp [List.getD_eq_getElem?_getD, List.getElem?_set, Ne.symm hi, Ne.symm hj]

theorem Swap_perm (v : List Comment) {i j : Nat} (hi : i < v.length) (hj : j < v.length) :
    (Swap v i j).Perm v := by
  rw [List.perm_iff_count]
  intro c
  unfold Swap
  rw [List.getD_eq_getElem _ _ hj, List.getD_eq_getElem _ _ hi]
  have hj' : j < (v.set i v[j]).length := by simpa using hj
  rw [List.count_set _ _ _ _ hj', List.count_set _ _ _ _ hi]
  have hpos : ∀ k (hk : k < v.length), (if v[k] == c then 1 else 0) ≤ v.count c := by
    intro k hk
    have hp := List.count_pos_iff.2 (show v[k] ∈ v from List.getElem_mem hk)
    split
    · rename_i h
      have hc : v[k] = c := by simpa using h
      rw [← hc]; omega
    · omega
  have hci := hpos i hi
  have hcj := hpos j hj
  by_cases h : i = j
  · subst h
    simp only [List.getElem_set_self]
    omega
  · rw [List.getElem_set_ne h]
    by_cases h1 : (v[i] == c) = true <;> by_cases h2 : (v[j] == c) = true <;>
      simp only [h1, h2, if_true, if_false] at * <;> omega

/-! ## Rearrangements of a range -/

theorem Keeps.refl (v : List Comment) (a b : Nat) : Keeps v v a b :=
  ⟨List.Perm.refl v, fun _ _ => rfl⟩

theorem Keeps.length {v v' : List Comment} {a b : Nat} (h : Keeps v v' a b) :
    v'.length = v.length :=
  h.1.length_eq

theorem Keeps.trans {v v' v'' : List Comment} {a b : Nat} (h1 : Keeps v v' a b)
    (h2 : Keeps v' v'' a b) : Keeps v v'' a b :=
  ⟨h2.1.trans h1.1, fun k hk => (h2.2 k hk).trans (h1.2 k hk)⟩

theorem Keeps.widen {v v' : List Comment} {a b a' b' : Nat} (h : Keeps v v' a' b')
    (ha : a ≤ a') (hb : b' ≤ b) : Keeps v v' a b :=
  ⟨h.1, fun k hk => h.2 k (by omega)⟩

theorem Keeps.getD_outside {v v' : List Comment} {a b : Nat} (h : Keeps v v' a b) {k : Nat}
    (hk : k < a ∨ b ≤ k) : v'.getD k default = v.getD k default := by
  simp [List.getD_eq_getElem?_getD, h.2 k hk]

theorem Keeps.keyAt_outside {v v' : List Comment} {a b : Nat} (h : Keeps v v' a b) {k : Nat}
    (hk : k < a ∨ b ≤ k) : keyAt v' k = keyAt v k := by
  unfold keyAt
  rw [h.getD_outside hk]

theorem Keeps.swap (v : List Comment) {a b i j : Nat} (hai : a ≤ i) (hib : i < b)
    (haj : a ≤ j) (hjb : j < b) (hb : b ≤ v.length) : Keeps v (Swap v i j) a b := by
  refine ⟨Swap_perm v (by omega) (by omega), fun k hk => ?_⟩
  unfold Swap
  rw [List.getElem?_set_ne (by omega), List.getElem?_set_ne (by omega)]

theorem Keeps.segment_perm {v v' : List Comment} {a b : Nat} (h : Keeps v v' a b)
    (hab : a ≤ b) :
    ((v'.drop a).take (b - a)).Perm ((v.drop a).take (b - a)) := by
  have hsplit : ∀ l : List Comment, l = l.take a ++ ((l.drop a).take (b - a) ++ l.drop b) := by
    intro l
    have h1 : (l.drop a).drop (b - a) = l.drop b := by
      rw [List.drop_drop]
      congr 1
      omega
    rw [← h1, List.take_append_drop, List.take_append_drop]
  have hA : v'.take a = v.take a := by
    apply List.ext_getElem?
    intro k
    rw [List.getElem?_take, List.getElem?_take]
    split
    · exact h.2 k (by omega)
    · rfl
  have hC : v'.drop b = v.drop b := by
    apply List.ext_getElem?
    intro k
    rw [List.getElem?_drop, List.getElem?_drop]
    exact h.2 _ (by omega)
  have hp := h.1
  rw [hsplit v', hsplit v, hA, hC] at hp
  exact (List.perm_append_right_iff _).1 ((List.perm_append_left_iff _).1 hp)

theorem Keeps.forall_range {v v' : List Comment} {a b : Nat} (h : Keeps v v' a b)
    (hb : b ≤ v.length) (P : Comment → Prop)
    (hP : ∀ k, a ≤ k → k < b → P (v.getD k default)) :
    ∀ k, a ≤ k → k < b → P (v'.getD k default) := by
  intro k hak hkb
  have hlen := h.length
  have hseg := h.segment_perm (by omega : a ≤ b)
  have hk' : k < v'.length := by omega
  have hmem : v'.getD k default ∈ (v'.drop a).take (b - a) := by
    rw [List.getD_eq_getElem _ _ hk', List.mem_iff_getElem]
    refine ⟨k - a, by simp; omega, ?_⟩
    simp only [List.getElem_take, List.getElem_drop]
    congr 1
    omega
  have hmem2 := hseg.mem_iff.1 hmem
  rw [List.mem_iff_getElem] at hmem2
  obtain ⟨m, hm, hmeq⟩ := hmem2
  simp only [List.length_take, List.length_drop] at hm
  simp only [List.getElem_take, List.getElem_drop] at hmeq
  rw [← hmeq]
  have := hP (a + m) (by omega) (by omega)
  rwa [List.getD_eq_getElem _ _ (by omega)] at this

/-! ## Sortedness of a range -/

theorem keyAt_Swap_left (v : List Comment) {i j : Nat} (hi : i < v.length) (hj : j < v.length) :
    keyAt (Swap v i j) i = keyAt v j := by
  unfold keyAt; rw [getD_Swap_left v hi hj]

theorem keyAt_Swap_right (v : List Comment) {i j : Nat} (hi : i < v.length)
    (hj : j < v.length) : keyAt (Swap v i j) j = keyAt v i := by
  unfold keyAt; rw [getD_Swap_right v hi hj]

theorem keyAt_Swap_of_ne (v : List Comment) {i j k : Nat} (hi : k ≠ i) (hj : k ≠ j) :
    keyAt (Swap v i j) k = keyAt v k := by
  unfold keyAt; rw [getD_Swap_of_ne v hi hj]

theorem SortedOn.pairwise {v : List Comment} (h : SortedOn v 0 v.length) :
    v.Pairwise (fun c d => c.Target ≤ d.Target) := by
  rw [List.pairwise_iff_getElem]
  intro i j hi hj hij
  have := h i j (Nat.zero_le _) hij hj
  unfold keyAt at this
  rwa [List.getD_eq_getElem _ _ hi, List.getD_eq_getElem _ _ hj] at this

/-! ## Loops over ranges -/

theorem foldl_range'_invariant {β : Type} (f : β → Nat → β) (Inv : Nat → β → Prop) (n : Nat) :
    ∀ (s : Nat) (x : β), Inv s x →
      (∀ i y, s ≤ i → i < s + n → Inv i y → Inv (i + 1) (f y i)) →
      Inv (s + n) ((List.range' s n).foldl f x) := by
  induction n with
  | zero => intro s x h _; simpa using h
  | succ n ih =>
    intro s x h hstep
    rw [List.range'_succ, List.foldl_cons]
    have := ih (s + 1) (f x s) (hstep s x (Nat.le_refl _) (by omega) h)
      (fun i y h1 h2 hi => hstep i y (by omega) (by omega) hi)
    rwa [show s + 1 + n = s + (n + 1) by omega] at this

theorem foldl_range_reverse_invariant {β : Type} (f : β → Nat → β) (Inv : Nat → β → Prop)
    (n : Nat) :
    ∀ (x : β), Inv n x → (∀ i y, i < n → Inv (i + 1) y → Inv i (f y i)) →
      Inv 0 ((List.range n).reverse.foldl f x) := by
  induction n with
  | zero => intro x h _; simpa using h
  | succ n ih =>
    intro x h hstep
    rw [List.range_succ, List.reverse_append, List.reverse_singleton, List.singleton_append,
      List.foldl_cons]
    exact ih (f x n) (hstep n x (by omega) h) (fun i y hi hy => hstep i y (by omega) hy)

/-! ## `insertionSort` -/

theorem SortedOn.narrow {v : List Comment} {a b a' b' : Nat} (h : SortedOn v a b)
    (ha : a ≤ a') (hb : b' ≤ b) : SortedOn v a' b' :=
  fun i j hi hij hj => h i j (by omega) hij (by omega)

theorem insertionSort_shift_spec (a i : Nat) :
    ∀ (j : Nat) (v : List Comment), a ≤ j → j ≤ i → i < v.length →
      (∀ p q, a ≤ p → p < q → q ≤ i → p ≠ j → q ≠ j → keyAt v p ≤ keyAt v q) →
      (∀ q, j < q → q ≤ i → keyAt v j ≤ keyAt v q) →
      Keeps v (insertionSort.shift a j v) a (i + 1) ∧
        SortedOn (insertionSort.shift a j v) a (i + 1) := by
  intro j
  induction j with
  | zero =>
    intro v ha _ _ h1 h2
    have ha0 : a = 0 := by omega
    subst ha0
    refine ⟨Keeps.refl _ _ _, ?_⟩
    intro p q hp hpq hq
    by_cases hp0 : p = 0
    · subst hp0; exact h2 q hpq (by omega)
    · exact h1 p q hp hpq (by omega) hp0 (by omega)
  | succ j ih =>
    intro v ha hji hi h1 h2
    unfold insertionSort.shift
    by_cases hc : (decide (a < j + 1) && Less v (j + 1) j) = true
    · rw [if_pos hc]
      simp only [Bool.and_eq_true, decide_eq_true_eq] at hc
      obtain ⟨haj, hless⟩ := hc
      rw [Less_iff] at hless
      have hj1 : j + 1 < v.length := by omega
      have hj0 : j < v.length := by omega
      have hk := Keeps.swap v (a := a) (b := i + 1) (i := j + 1) (j := j) (by omega) (by omega)
        (by omega) (by omega) (by omega)
      have key1 : keyAt (Swap v (j + 1) j) (j + 1) = keyAt v j := keyAt_Swap_left v hj1 hj0
      have key0 : keyAt (Swap v (j + 1) j) j = keyAt v (j + 1) := keyAt_Swap_right v hj1 hj0
      have keyo : ∀ k, k ≠ j + 1 → k ≠ j → keyAt (Swap v (j + 1) j) k = keyAt v k :=
        fun k hk1 hk0 => keyAt_Swap_of_ne v hk1 hk0
      have := ih (Swap v (j + 1) j) (by omega) (by omega) (by rw [Swap_length]; omega)
        (by
          intro p q hp hpq hq hpj hqj
          by_cases hq1 : q = j + 1
          · subst hq1
            rw [key1, keyo p (by omega) hpj]
            exact h1 p j hp (by omega) (by omega) (by omega) (by omega)
          · by_cases hp1 : p = j + 1
            · subst hp1
              rw [key1, keyo q hq1 hqj]
              exact h1 j q (by omega) (by omega) hq (by omega) hq1
            · rw [keyo p hp1 hpj, keyo q hq1 hqj]
              exact h1 p q hp hpq hq hp1 hq1)
        (by
          intro q hjq hq
          rw [key0]
          by_cases hq1 : q = j + 1
          · subst hq1; rw [key1]; exact le_of_lt hless
          · rw [keyo q hq1 (by omega)]
            exact h2 q (by omega) hq)
      exact ⟨hk.trans this.1, this.2⟩
    · rw [if_neg hc]
      refine ⟨Keeps.refl _ _ _, ?_⟩
      intro p q hp hpq hq
      by_cases hpj : p = j + 1
      · subst hpj; exact h2 q hpq (by omega)
      · by_cases hqj : q = j + 1
        · subst hqj
          have haj : a < j + 1 := by omega
          have hl : Less v (j + 1) j = false := by
            cases hL : Less v (j + 1) j
            · rfl
            · exfalso; apply hc; simp [haj, hL]
          rw [Less_false_iff] at hl
          by_cases hpj' : p = j
          · subst hpj'; exact hl
          · exact le_trans (h1 p j hp (by omega) (by omega) (by omega) (by omega)) hl
        · exact h1 p q hp hpq (by omega) hpj hqj

theorem insertionSort_spec (data : List Comment) (a b : Nat) (hb : b ≤ data.length) :
    Keeps data (insertionSort data a b) a b ∧ SortedOn (insertionSort data a b) a b := by
  unfold insertionSort
  have := foldl_range'_invariant (fun v i => insertionSort.shift a i v)
    (fun i v => Keeps data v a b ∧ SortedOn v a i) (b - (a + 1)) (a + 1) data
    ⟨Keeps.refl _ _ _, fun i j hi hij hj => by omega⟩
    (by
      intro i v hi hib ⟨hk, hs⟩
      have hlen := hk.length
      have := insertionSort_shift_spec a i i v (by omega) (Nat.le_refl _) (by omega)
        (fun p q hp hpq hq hpi hqi => hs p q hp hpq (by omega))
        (fun q h1 h2 => by omega)
      exact ⟨hk.trans (this.1.widen (Nat.le_refl _) (by omega)), this.2⟩)
  refine ⟨this.1, this.2.narrow (Nat.le_refl _) (by omega)⟩

/-! ## `siftDown` and `heapSort` -/

theorem siftDown_loop_succ (hi first fuel root : Nat) (v : List Comment) :
    siftDown.loop hi first (fuel + 1) root v =
      if hi ≤ 2 * root + 1 then v
      else if !Less v (first + root) (first + largerChild v first hi root) then v
      else siftDown.loop hi first fuel (largerChild v first hi root)
        (Swap v (first + root) (first + largerChild v first hi root)) := rfl

theorem largerChild_spec (v : List Comment) (first hi root : Nat) (h : 2 * root + 1 < hi) :
    (largerChild v first hi root = 2 * root + 1 ∨ largerChild v first hi root = 2 * root + 2) ∧
      largerChild v first hi root < hi ∧
      keyAt v (first + (2 * root + 1)) ≤ keyAt v (first + largerChild v first hi root) ∧
      (2 * root + 2 < hi →
        keyAt v (first + (2 * root + 2)) ≤ keyAt v (first + largerChild v first hi root)) := by
  unfold largerChild
  by_cases hc : (decide (2 * root + 1 + 1 < hi) &&
      Less v (first + (2 * root + 1)) (first + (2 * root + 1) + 1)) = true
  · rw [if_pos hc]
    simp only [Bool.and_eq_true, decide_eq_true_eq] at hc
    obtain ⟨h2, hl⟩ := hc
    rw [Less_iff] at hl
    rw [show first + (2 * root + 1) + 1 = first + (2 * root + 2) by omega] at hl
    refine ⟨Or.inr rfl, h2, ?_, fun _ => ?_⟩
    · rw [show first + (2 * root + 1 + 1) = first + (2 * root + 2) by omega]
      exact le_of_lt hl
    · rw [show first + (2 * root + 1 + 1) = first + (2 * root + 2) by omega]
  · rw [if_neg hc]
    refine ⟨Or.inl rfl, h, le_refl _, fun h2 => ?_⟩
    have hl : Less v (first + (2 * root + 1)) (first + (2 * root + 1) + 1) = false := by
      cases hL : Less v (first + (2 * root + 1)) (first + (2 * root + 1) + 1)
      · rfl
      · exfalso; apply hc; simp [hL]; omega
    rw [Less_false_iff] at hl
    rwa [show first + (2 * root + 1) + 1 = first + (2 * root + 2) by omega] at hl

theorem siftDown_loop_spec (hi first lo : Nat) :
    ∀ (fuel root : Nat) (v : List Comment), lo ≤ root → first + hi ≤ v.length →
      hi - root ≤ fuel →
      (∀ p, lo ≤ p → p < hi → p ≠ root → HeapAt v first hi p) →
      (∀ p, lo ≤ p → (root = 2 * p + 1 ∨ root = 2 * p + 2) →
        (2 * root + 1 < hi → keyAt v (first + (2 * root + 1)) ≤ keyAt v (first + p)) ∧
        (2 * root + 2 < hi → keyAt v (first + (2 * root + 2)) ≤ keyAt v (first + p))) →
      Keeps v (siftDown.loop hi first fuel root v) first (first + hi) ∧
        ∀ p, lo ≤ p → p < hi → HeapAt (siftDown.loop hi first fuel root v) first hi p := by
  intro fuel
  induction fuel with
  | zero =>
    intro root v _ _ hf hheap _
    refine ⟨Keeps.refl _ _ _, fun p hp hph => ?_⟩
    exact hheap p hp hph (by omega)
  | succ fuel ih =>
    intro root v hlo hlen hf hheap hgp
    rw [siftDown_loop_succ]
    by_cases h1 : hi ≤ 2 * root + 1
    · rw [if_pos h1]
      refine ⟨Keeps.refl _ _ _, fun p hp hph => ?_⟩
      by_cases hpr : p = root
      · subst hpr
        exact ⟨fun h => by omega, fun h => by omega⟩
      · exact hheap p hp hph hpr
    · rw [if_neg h1]
      have h1' : 2 * root + 1 < hi := by omega
      obtain ⟨hcases, hchi, hc1, hc2⟩ := largerChild_spec v first hi root h1'
      generalize largerChild v first hi root = c at hcases hchi hc1 hc2
      by_cases h2 : (!Less v (first + root) (first + c)) = true
      · rw [if_pos h2]
        have hl : Less v (first + root) (first + c) = false := by simpa using h2
        rw [Less_false_iff] at hl
        refine ⟨Keeps.refl _ _ _, fun p hp hph => ?_⟩
        by_cases hpr : p = root
        · subst hpr
          exact ⟨fun _ => le_trans hc1 hl, fun h => le_trans (hc2 h) hl⟩
        · exact hheap p hp hph hpr
      · rw [if_neg h2]
        have hl : Less v (first + root) (first + c) = true := by simpa using h2
        rw [Less_iff] at hl
        have hr : first + root < v.length := by omega
        have hcl : first + c < v.length := by omega
        have hk := Keeps.swap v (a := first) (b := first + hi) (i := first + root)
          (j := first + c) (by omega) (by omega) (by omega) (by omega) hlen
        have keyr : keyAt (Swap v (first + root) (first + c)) (first + root) = keyAt v (first + c) :=
          keyAt_Swap_left v hr hcl
        have keyc : keyAt (Swap v (first + root) (first + c)) (first + c) = keyAt v (first + root) :=
          keyAt_Swap_right v hr hcl
        have keyo : ∀ k, k ≠ root → k ≠ c →
            keyAt (Swap v (first + root) (first + c)) (first + k) = keyAt v (first + k) :=
          fun k hk1 hk2 => keyAt_Swap_of_ne v (by omega) (by omega)
        have hrec := ih c (Swap v (first + root) (first + c)) (by omega)
          (by rw [Swap_length]; exact hlen) (by omega)
          (by
            intro p hp hph hpc
            by_cases hpr : p = root
            · subst hpr
              constructor
              · intro _
                rw [keyr]
                rcases hcases with hc | hc
                · rw [← hc, keyc]; exact le_of_lt hl
                · rw [keyo (2 * p + 1) (by omega) (by omega)]; exact hc1
              · intro h
                rw [keyr]
                rcases hcases with hc | hc
                · rw [keyo (2 * p + 2) (by omega) (by omega)]; exact hc2 h
                · rw [← hc, keyc]; exact le_of_lt hl
            · have hp0 := hheap p hp hph hpr
              constructor
              · intro h
                rw [keyo p hpr hpc]
                by_cases hch : 2 * p + 1 = root
                · rw [hch, keyr]
                  have := hgp p hp (Or.inl hch.symm)
                  rcases hcases with hc | hc
                  · rw [hc]; exact this.1 (by omega)
                  · rw [hc]; exact this.2 (by omega)
                · rw [keyo (2 * p + 1) hch (by omega)]
                  exact hp0.1 h
              · intro h
                rw [keyo p hpr hpc]
                by_cases hch : 2 * p + 2 = root
                · rw [hch, keyr]
                  have := hgp p hp (Or.inr hch.symm)
                  rcases hcases with hc | hc
                  · rw [hc]; exact this.1 (by omega)
                  · rw [hc]; exact this.2 (by omega)
                · rw [keyo (2 * p + 2) hch (by omega)]
                  exact hp0.2 h)
          (by
            intro p hp hpar
            have hpr : p = root := by omega
            subst hpr
            have hc0 := hheap c (by omega) hchi (by omega)
            rw [keyr]
            constructor
            · intro h
              rw [keyo (2 * c + 1) (by omega) (by omega)]
              exact hc0.1 h
            · intro h
              rw [keyo (2 * c + 2) (by omega) (by omega)]
              exact hc0.2 h)
        exact ⟨hk.trans hrec.1, hrec.2⟩

theorem siftDown_spec (data : List Comment) (lo hi first : Nat) (hlen : first + hi ≤ data.length)
    (hheap : ∀ p, lo < p → p < hi → HeapAt data first hi p) :
    Keeps data (siftDown data lo hi first) first (first + hi) ∧
      ∀ p, lo ≤ p → p < hi → HeapAt (siftDown data lo hi first) first hi p := by
  unfold siftDown
  exact siftDown_loop_spec hi first lo hi lo data (Nat.le_refl _) hlen (by omega)
    (fun p hp hph hne => hheap p (by omega) hph) (fun p hp hpar => by omega)

theorem heap_root_max (v : List Comment) (first m : Nat)
    (hheap : ∀ p, p < m → HeapAt v first m p) :
    ∀ p, p < m → keyAt v (first + p) ≤ keyAt v (first + 0) := by
  intro p
  induction p using Nat.strong_induction_on with
  | _ p ih =>
    intro hp
    by_cases h0 : p = 0
    · subst h0; exact le_refl _
    · have hpar := hheap ((p - 1) / 2) (by omega)
      have ihp := ih ((p - 1) / 2) (by omega) (by omega)
      rcases Nat.even_or_odd p with he | ho
      · obtain ⟨k, hk⟩ := he
        have e : 2 * ((p - 1) / 2) + 2 = p := by omega
        have := hpar.2 (by omega)
        rw [e] at this
        exact le_trans this ihp
      · obtain ⟨k, hk⟩ := ho
        have e : 2 * ((p - 1) / 2) + 1 = p := by omega
        have := hpar.1 (by omega)
        rw [e] at this
        exact le_trans this ihp

theorem Keeps.keyAt_le {v v' : List Comment} {a b : Nat} (h : Keeps v v' a b)
    (hb : b ≤ v.length) (K : String) (hP : ∀ k, a ≤ k → k < b → keyAt v k ≤ K) :
    ∀ k, a ≤ k → k < b → keyAt v' k ≤ K :=
  h.forall_range hb (fun c => c.Target ≤ K) hP

theorem Keeps.le_keyAt {v v' : List Comment} {a b : Nat} (h : Keeps v v' a b)
    (hb : b ≤ v.length) (K : String) (hP : ∀ k, a ≤ k → k < b → K ≤ keyAt v k) :
    ∀ k, a ≤ k → k < b → K ≤ keyAt v' k :=
  h.forall_range hb (fun c => K ≤ c.Target) hP

theorem heapSort_build (data : List Comment) (a b : Nat) (hab : a ≤ b) (hb : b ≤ data.length) :
    Keeps data ((List.range ((b - a - 1) / 2 + 1)).reverse.foldl
        (fun v i => siftDown v i (b - a) a) data) a b ∧
      ∀ p, p < b - a → HeapAt ((List.range ((b - a - 1) / 2 + 1)).reverse.foldl
        (fun v i => siftDown v i (b - a) a) data) a (b - a) p := by
  have := foldl_range_reverse_invariant (fun v i => siftDown v i (b - a) a)
    (fun i v => Keeps data v a b ∧ ∀ p, i ≤ p → p < b - a → HeapAt v a (b - a) p)
    ((b - a - 1) / 2 + 1) data
    ⟨Keeps.refl _ _ _, fun p hp hph => ⟨fun h => by omega, fun h => by omega⟩⟩
    (by
      intro i y _ ⟨hk, hheap⟩
      have hlen := hk.length
      have hs := siftDown_spec y i (b - a) a (by omega) (fun p hip hph => hheap p (by omega) hph)
      rw [show a + (b - a) = b by omega] at hs
      exact ⟨hk.trans hs.1, hs.2⟩)
  exact ⟨this.1, fun p hp => this.2 p (Nat.zero_le _) hp⟩

theorem heapSort_pop (v0 : List Comment) (a b : Nat) (hab : a ≤ b) (hb : b ≤ v0.length)
    (hheap : ∀ p, p < b - a → HeapAt v0 a (b - a) p) :
    Keeps v0 ((List.range (b - a)).reverse.foldl
        (fun v i => siftDown (Swap v a (a + i)) 0 i a) v0) a b ∧
      SortedOn ((List.range (b - a)).reverse.foldl
        (fun v i => siftDown (Swap v a (a + i)) 0 i a) v0) a b := by
  have := foldl_range_reverse_invariant (fun v i => siftDown (Swap v a (a + i)) 0 i a)
    (fun m v => Keeps v0 v a b ∧ (∀ p, p < m → HeapAt v a m p) ∧ SortedOn v (a + m) b ∧
      ∀ p q, p < m → m ≤ q → q < b - a → keyAt v (a + p) ≤ keyAt v (a + q))
    (b - a) v0
    ⟨Keeps.refl _ _ _, hheap, fun i j hi hij hj => by omega, fun p q hp hq hq' => by omega⟩
    (by
      intro i y hi ⟨hk, hh, hs, hle⟩
      have hlen := hk.length
      have hya : a < y.length := by omega
      have hyi : a + i < y.length := by omega
      have key0 : keyAt (Swap y a (a + i)) a = keyAt y (a + i) := keyAt_Swap_left y hya hyi
      have keyi : keyAt (Swap y a (a + i)) (a + i) = keyAt y a := keyAt_Swap_right y hya hyi
      have keyo : ∀ k, k ≠ a → k ≠ a + i → keyAt (Swap y a (a + i)) k = keyAt y k :=
        fun k h1 h2 => keyAt_Swap_of_ne y h1 h2
      have hmax := heap_root_max y a (i + 1) hh
      simp only [Nat.add_zero] at hmax
      have hk1 : Keeps y (Swap y a (a + i)) a b :=
        Keeps.swap y (Nat.le_refl _) (by omega) (by omega) (by omega) (by omega)
      have hsd := siftDown_spec (Swap y a (a + i)) 0 i a (by rw [Swap_length]; omega)
        (by
          intro p hp0 hpi
          have := hh p (by omega)
          constructor
          · intro h
            rw [keyo _ (by omega) (by omega), keyo _ (by omega) (by omega)]
            exact this.1 (by omega)
          · intro h
            rw [keyo _ (by omega) (by omega), keyo _ (by omega) (by omega)]
            exact this.2 (by omega))
      have hout : ∀ k, a + i ≤ k →
          keyAt (siftDown (Swap y a (a + i)) 0 i a) k = keyAt (Swap y a (a + i)) k :=
        fun k hk' => hsd.1.keyAt_outside (Or.inr hk')
      refine ⟨hk.trans (hk1.trans (hsd.1.widen (Nat.le_refl _) (by omega))),
        fun p hp => hsd.2 p (Nat.zero_le _) hp, ?_, ?_⟩
      · intro p q hp hpq hq
        rw [hout p hp, hout q (by omega)]
        by_cases hpi : p = a + i
        · subst hpi
          rw [keyi, keyo q (by omega) (by omega)]
          have := hle 0 (q - a) (by omega) (by omega) (by omega)
          rwa [Nat.add_zero, show a + (q - a) = q by omega] at this
        · rw [keyo p (by omega) hpi, keyo q (by omega) (by omega)]
          exact hs p q (by omega) hpq hq
      · intro p q hp hq hq'
        rw [hout (a + q) (by omega)]
        have hall : ∀ k, a ≤ k → k < a + i →
            keyAt (Swap y a (a + i)) k ≤ keyAt (Swap y a (a + i)) (a + q) := by
          intro k hak hki
          have hkq : keyAt y k ≤ keyAt (Swap y a (a + i)) (a + q) ∧
              keyAt y (a + i) ≤ keyAt (Swap y a (a + i)) (a + q) := by
            by_cases hqi : q = i
            · subst hqi
              rw [keyi]
              have h1 := hmax (k - a) (by omega)
              rw [show a + (k - a) = k by omega] at h1
              exact ⟨h1, hmax q (by omega)⟩
            · rw [keyo (a + q) (by omega) (by omega)]
              have h1 := hle (k - a) q (by omega) (by omega) hq'
              rw [show a + (k - a) = k by omega] at h1
              exact ⟨h1, hle i q (by omega) (by omega) hq'⟩
          by_cases hka : k = a
          · subst hka; rw [key0]; exact hkq.2
          · rw [keyo k hka (by omega)]; exact hkq.1
        exact hsd.1.keyAt_le (by rw [Swap_length]; omega) _ hall (a + p) (by omega) (by omega))
  refine ⟨this.1, ?_⟩
  have h3 := this.2.2.1
  rwa [Nat.add_zero] at h3

theorem heapSort_spec (data : List Comment) (a b : Nat) (hab : a ≤ b) (hb : b ≤ data.length) :
    Keeps data (heapSort data a b) a b ∧ SortedOn (heapSort data a b) a b := by
  have h1 := heapSort_build data a b hab hb
  have h2 := heapSort_pop _ a b hab (by rw [h1.1.length]; exact hb) h1.2
  exact ⟨h1.1.trans h2.1, h2.2⟩

/-! ## The two-way partition shared by `partition` and `partitionEqual` -/

theorem scanUpG_spec (low : Nat → Bool) (j : Nat) :
    ∀ (fuel i : Nat), j + 1 - i ≤ fuel → i ≤ j + 1 →
      i ≤ scanUpG low j fuel i ∧ scanUpG low j fuel i ≤ j + 1 ∧
        (∀ k, i ≤ k → k < scanUpG low j fuel i → low k = true) ∧
        (scanUpG low j fuel i ≤ j → low (scanUpG low j fuel i) = false) := by
  intro fuel
  induction fuel with
  | zero =>
    intro i hf hi
    simp only [scanUpG]
    exact ⟨Nat.le_refl _, hi, fun k h1 h2 => by omega, fun h => by omega⟩
  | succ fuel ih =>
    intro i hf hi
    simp only [scanUpG]
    by_cases hc : (decide (i ≤ j) && low i) = true
    · rw [if_pos hc]
      simp only [Bool.and_eq_true, decide_eq_true_eq] at hc
      obtain ⟨h1, h2, h3, h4⟩ := ih (i + 1) (by omega) (by omega)
      refine ⟨by omega, h2, fun k hk1 hk2 => ?_, h4⟩
      by_cases hki : k = i
      · subst hki; exact hc.2
      · exact h3 k (by omega) hk2
    · rw [if_neg hc]
      refine ⟨Nat.le_refl _, hi, fun k h1 h2 => by omega, fun h => ?_⟩
      cases hl : low i
      · rfl
      · exfalso; apply hc; simp [hl, h]

theorem scanDownG_spec (low : Nat → Bool) (i : Nat) (hi1 : 1 ≤ i) :
    ∀ (j : Nat), i ≤ j + 1 →
      scanDownG low i j ≤ j ∧ i ≤ scanDownG low i j + 1 ∧
        (∀ k, scanDownG low i j < k → k ≤ j → low k = false) ∧
        (i ≤ scanDownG low i j → low (scanDownG low i j) = true) := by
  intro j
  induction j with
  | zero =>
    intro hi
    simp only [scanDownG]
    exact ⟨Nat.le_refl _, hi, fun k h1 h2 => by omega, fun h => by omega⟩
  | succ j ih =>
    intro hi
    simp only [scanDownG]
    by_cases hc : (decide (i ≤ j + 1) && !low (j + 1)) = true
    · rw [if_pos hc]
      simp only [Bool.and_eq_true, decide_eq_true_eq, Bool.not_eq_true'] at hc
      obtain ⟨h1, h2, h3, h4⟩ := ih (by omega)
      refine ⟨by omega, h2, fun k hk1 hk2 => ?_, h4⟩
      by_cases hkj : k = j + 1
      · subst hkj; exact hc.2
      · exact h3 k hk1 (by omega)
    · rw [if_neg hc]
      refine ⟨Nat.le_refl _, by omega, fun k h1 h2 => by omega, fun h => ?_⟩
      cases hl : low (j + 1)
      · exfalso; apply hc; simp [hl, h]
      · rfl

theorem loopG_spec (low : List Comment → Nat → Bool) (a b : Nat)
    (hlow : ∀ (v : List Comment) (i j k : Nat), a + 1 ≤ i → a + 1 ≤ j → i < v.length →
      j < v.length →
      low (Swap v i j) k = if k = i then low v j else if k = j then low v i else low v k) :
    ∀ (fuel i j : Nat) (v : List Comment), b ≤ v.length → PartInv low v a b i j →
      j + 1 - i ≤ fuel →
      Keeps v (loopG low fuel i j v).1 (a + 1) b ∧
        (loopG low fuel i j v).2.1 = (loopG low fuel i j v).2.2 + 1 ∧
        PartInv low (loopG low fuel i j v).1 a b (loopG low fuel i j v).2.1
          (loopG low fuel i j v).2.2 := by
  intro fuel
  induction fuel with
  | zero =>
    intro i j v _ hinv hf
    simp only [loopG]
    exact ⟨Keeps.refl _ _ _, by have := hinv.2.1; omega, hinv⟩
  | succ fuel ih =>
    intro i j v hlen hinv hf
    obtain ⟨hai, hij, hjb, hL, hR⟩ := hinv
    simp only [loopG]
    obtain ⟨u1, u2, u3, u4⟩ := scanUpG_spec (low v) j (j + 1 - i) i (Nat.le_refl _) hij
    generalize scanUpG (low v) j (j + 1 - i) i = i' at u1 u2 u3 u4
    obtain ⟨d1, d2, d3, d4⟩ := scanDownG_spec (low v) i' (by omega) j u2
    generalize scanDownG (low v) i' j = j' at d1 d2 d3 d4
    have hL' : ∀ k, a + 1 ≤ k → k < i' → low v k = true := by
      intro k h1 h2
      by_cases hk : k < i
      · exact hL k h1 hk
      · exact u3 k (by omega) h2
    have hR' : ∀ k, j' < k → k < b → low v k = false := by
      intro k h1 h2
      by_cases hk : j < k
      · exact hR k hk h2
      · exact d3 k h1 (by omega)
    by_cases hc : j' < i'
    · rw [if_pos hc]
      dsimp only
      exact ⟨Keeps.refl _ _ _, by omega, by omega, by omega, by omega, hL', hR'⟩
    · rw [if_neg hc]
      have hi'j' : i' ≤ j' := by omega
      have hli : low v i' = false := u4 (by omega)
      have hlj : low v j' = true := d4 hi'j'
      have hne : i' ≠ j' := by
        intro h; rw [h] at hli; rw [hli] at hlj; exact Bool.false_ne_true hlj
      have hsw := hlow v i' j'
      have hk := Keeps.swap v (a := a + 1) (b := b) (i := i') (j := j') (by omega) (by omega)
        (by omega) (by omega) hlen
      have hrec := ih (i' + 1) (j' - 1) (Swap v i' j') (by rw [Swap_length]; exact hlen)
        ⟨by omega, by omega, by omega,
          fun k h1 h2 => by
            rw [hsw k (by omega) (by omega) (by omega) (by omega)]
            by_cases hki : k = i'
            · rw [if_pos hki]; exact hlj
            · rw [if_neg hki, if_neg (by omega)]; exact hL' k h1 (by omega),
          fun k h1 h2 => by
            rw [hsw k (by omega) (by omega) (by omega) (by omega)]
            by_cases hkj : k = j'
            · rw [if_neg (by omega), if_pos hkj]; exact hli
            · rw [if_neg (by omega), if_neg hkj]; exact hR' k (by omega) h2⟩
        (by omega)
      exact ⟨hk.trans hrec.1, hrec.2⟩

theorem Less_eq_of_keyAt {v w : List Comment} {i j i' j' : Nat} (h1 : keyAt v i = keyAt w i')
    (h2 : keyAt v j = keyAt w j') : Less v i j = Less w i' j' := by
  unfold Less
  unfold keyAt at h1 h2
  rw [h1, h2]

theorem Less_Swap_right (a : Nat) (v : List Comment) (i j k : Nat) (hi : a + 1 ≤ i)
    (hj : a + 1 ≤ j) (hil : i < v.length) (hjl : j < v.length) :
    Less (Swap v i j) k a = if k = i then Less v j a else if k = j then Less v i a
      else Less v k a := by
  have ha : keyAt (Swap v i j) a = keyAt v a := keyAt_Swap_of_ne v (by omega) (by omega)
  by_cases hki : k = i
  · rw [if_pos hki, hki]
    exact Less_eq_of_keyAt (keyAt_Swap_left v hil hjl) ha
  · rw [if_neg hki]
    by_cases hkj : k = j
    · rw [if_pos hkj, hkj]
      exact Less_eq_of_keyAt (keyAt_Swap_right v hil hjl) ha
    · rw [if_neg hkj]
      exact Less_eq_of_keyAt (keyAt_Swap_of_ne v hki hkj) ha

theorem Less_Swap_left (a : Nat) (v : List Comment) (i j k : Nat) (hi : a + 1 ≤ i)
    (hj : a + 1 ≤ j) (hil : i < v.length) (hjl : j < v.length) :
    (!Less (Swap v i j) a k) = if k = i then !Less v a j else if k = j then !Less v a i
      else !Less v a k := by
  have ha : keyAt (Swap v i j) a = keyAt v a := keyAt_Swap_of_ne v (by omega) (by omega)
  by_cases hki : k = i
  · rw [if_pos hki, hki]
    rw [Less_eq_of_keyAt ha (keyAt_Swap_left v hil hjl)]
  · rw [if_neg hki]
    by_cases hkj : k = j
    · rw [if_pos hkj, hkj]
      rw [Less_eq_of_keyAt ha (keyAt_Swap_right v hil hjl)]
    · rw [if_neg hkj]
      rw [Less_eq_of_keyAt ha (keyAt_Swap_of_ne v hki hkj)]

/-! ## `partition` -/

theorem partition_scanUp_eq (v : List Comment) (a j : Nat) :
    ∀ fuel i, partition.scanUp v a j fuel i = scanUpG (fun k => Less v k a) j fuel i := by
  intro fuel
  induction fuel with
  | zero => intro i; rfl
  | succ fuel ih => intro i; simp only [partition.scanUp, scanUpG, ih]

theorem partition_scanDown_eq (v : List Comment) (a i : Nat) :
    ∀ j, partition.scanDown v a i j = scanDownG (fun k => Less v k a) i j := by
  intro j
  induction j with
  | zero => rfl
  | succ j ih => simp only [partition.scanDown, scanDownG, ih]

theorem partition_loop_eq (a : Nat) :
    ∀ fuel i j v, partition.loop a fuel i j v =
      ((loopG (fun v k => Less v k a) fuel i j v).1,
        (loopG (fun v k => Less v k a) fuel i j v).2.2) := by
  intro fuel
  induction fuel with
  | zero => intro i j v; rfl
  | succ fuel ih =>
    intro i j v
    simp only [partition.loop, loopG, partition_scanUp_eq, partition_scanDown_eq, ih]
    split <;> rfl

theorem partition_eq (data : List Comment) (a b pivot : Nat) :
    (partition data a b pivot).1 =
        Swap (loopG (fun v k => Less v k a) (b - a + 1) (a + 1) (b - 1) (Swap data a pivot)).1
          (loopG (fun v k => Less v k a) (b - a + 1) (a + 1) (b - 1) (Swap data a pivot)).2.2 a ∧
      (partition data a b pivot).2.1 =
        (loopG (fun v k => Less v k a) (b - a + 1) (a + 1) (b - 1) (Swap data a pivot)).2.2 := by
  simp only [partition, loopG, partition_scanUp_eq, partition_scanDown_eq, partition_loop_eq]
  split <;> exact ⟨rfl, rfl⟩

theorem partition_spec (data : List Comment) (a b pivot : Nat) (hap : a ≤ pivot)
    (hpb : pivot < b) (hb : b ≤ data.length) :
    Keeps data (partition data a b pivot).1 a b ∧ a ≤ (partition data a b pivot).2.1 ∧
      (partition data a b pivot).2.1 < b ∧
      (∀ k, a ≤ k → k < (partition data a b pivot).2.1 →
        keyAt (partition data a b pivot).1 k ≤
          keyAt (partition data a b pivot).1 (partition data a b pivot).2.1) ∧
      (∀ k, (partition data a b pivot).2.1 < k → k < b →
        keyAt (partition data a b pivot).1 (partition data a b pivot).2.1 ≤
          keyAt (partition data a b pivot).1 k) := by
  obtain ⟨e1, e2⟩ := partition_eq data a b pivot
  rw [e1, e2]
  have hk0 : Keeps data (Swap data a pivot) a b :=
    Keeps.swap data (Nat.le_refl _) (by omega) hap hpb hb
  have hspec := loopG_spec (fun v k => Less v k a) a b (Less_Swap_right a) (b - a + 1) (a + 1)
    (b - 1) (Swap data a pivot) (by rw [Swap_length]; exact hb)
    ⟨Nat.le_refl _, by omega, by omega, fun k h1 h2 => by omega, fun k h1 h2 => by omega⟩
    (by omega)
  obtain ⟨hk, hij, hinv⟩ := hspec
  generalize (loopG (fun v k => Less v k a) (b - a + 1) (a + 1) (b - 1) (Swap data a pivot)).1
    = w at hk hinv
  generalize (loopG (fun v k => Less v k a) (b - a + 1) (a + 1) (b - 1)
    (Swap data a pivot)).2.1 = i at hij hinv
  generalize (loopG (fun v k => Less v k a) (b - a + 1) (a + 1) (b - 1)
    (Swap data a pivot)).2.2 = j at hij hinv
  obtain ⟨h1, h2, h3, hL, hR⟩ := hinv
  have hlen : w.length = data.length := by rw [hk.length, Swap_length]
  have hja : j < w.length := by omega
  have haa : a < w.length := by omega
  have keyj : keyAt (Swap w j a) j = keyAt w a := keyAt_Swap_left w hja haa
  have keya : keyAt (Swap w j a) a = keyAt w j := keyAt_Swap_right w hja haa
  have keyo : ∀ k, k ≠ j → k ≠ a → keyAt (Swap w j a) k = keyAt w k :=
    fun k h1 h2 => keyAt_Swap_of_ne w h1 h2
  have hk2 : Keeps w (Swap w j a) a b :=
    Keeps.swap w (by omega) (by omega) (Nat.le_refl _) (by omega) (by omega)
  refine ⟨hk0.trans ((hk.widen (by omega) (Nat.le_refl _)).trans hk2), by omega, by omega, ?_, ?_⟩
  · intro k hak hkj
    rw [keyj]
    by_cases hka : k = a
    · subst hka
      rw [keya]
      have := hL j (by omega) (by omega)
      exact le_of_lt ((Less_iff _ _ _).1 this)
    · rw [keyo k (by omega) hka]
      have := hL k (by omega) (by omega)
      exact le_of_lt ((Less_iff _ _ _).1 this)
  · intro k hjk hkb
    rw [keyj, keyo k (by omega) (by omega)]
    have := hR k hjk hkb
    exact (Less_false_iff _ _ _).1 this

/-! ## `partitionEqual` -/

theorem partitionEqual_scanUp_eq (v : List Comment) (a j : Nat) :
    ∀ fuel i, partitionEqual.scanUp v a j fuel i = scanUpG (fun k => !Less v a k) j fuel i := by
  intro fuel
  induction fuel with
  | zero => intro i; rfl
  | succ fuel ih => intro i; simp only [partitionEqual.scanUp, scanUpG, ih]

theorem partitionEqual_scanDown_eq (v : List Comment) (a i : Nat) :
    ∀ j, partitionEqual.scanDown v a i j = scanDownG (fun k => !Less v a k) i j := by
  intro j
  induction j with
  | zero => rfl
  | succ j ih => simp only [partitionEqual.scanDown, scanDownG, ih, Bool.not_not]

theorem partitionEqual_loop_eq (a : Nat) :
    ∀ fuel i j v, partitionEqual.loop a fuel i j v =
      ((loopG (fun v k => !Less v a k) fuel i j v).1,
        (loopG (fun v k => !Less v a k) fuel i j v).2.1) := by
  intro fuel
  induction fuel with
  | zero => intro i j v; rfl
  | succ fuel ih =>
    intro i j v
    simp only [partitionEqual.loop, loopG, partitionEqual_scanUp_eq, partitionEqual_scanDown_eq,
      ih]
    split <;> rfl

theorem partitionEqual_spec (data : List Comment) (a b pivot : Nat) (hap : a ≤ pivot)
    (hpb : pivot < b) (hb : b ≤ data.length) :
    Keeps data (partitionEqual data a b pivot).1 a b ∧
      a + 1 ≤ (partitionEqual data a b pivot).2 ∧ (partitionEqual data a b pivot).2 ≤ b ∧
      (∀ k, a ≤ k → k < (partitionEqual data a b pivot).2 →
        keyAt (partitionEqual data a b pivot).1 k ≤ keyAt data pivot) ∧
      (∀ k, (partitionEqual data a b pivot).2 ≤ k → k < b →
        keyAt data pivot < keyAt (partitionEqual data a b pivot).1 k) := by
  simp only [partitionEqual, partitionEqual_loop_eq]
  have hk0 : Keeps data (Swap data a pivot) a b :=
    Keeps.swap data (Nat.le_refl _) (by omega) hap hpb hb
  have hP : keyAt (Swap data a pivot) a = keyAt data pivot :=
    keyAt_Swap_left data (by omega) (by omega)
  have hspec := loopG_spec (fun v k => !Less v a k) a b (Less_Swap_left a) (b - a) (a + 1)
    (b - 1) (Swap data a pivot) (by rw [Swap_length]; exact hb)
    ⟨Nat.le_refl _, by omega, by omega, fun k h1 h2 => by omega, fun k h1 h2 => by omega⟩
    (by omega)
  obtain ⟨hk, hij, hinv⟩ := hspec
  generalize (loopG (fun v k => !Less v a k) (b - a) (a + 1) (b - 1) (Swap data a pivot)).1
    = w at hk hinv
  generalize (loopG (fun v k => !Less v a k) (b - a) (a + 1) (b - 1)
    (Swap data a pivot)).2.1 = i at hij hinv
  generalize (loopG (fun v k => !Less v a k) (b - a) (a + 1) (b - 1)
    (Swap data a pivot)).2.2 = j at hij hinv
  obtain ⟨h1, h2, h3, hL, hR⟩ := hinv
  have hwa : keyAt w a = keyAt data pivot := by
    rw [hk.keyAt_outside (Or.inl (by omega)), hP]
  refine ⟨hk0.trans (hk.widen (by omega) (Nat.le_refl _)), h1, by omega, ?_, ?_⟩
  · intro k hak hki
    by_cases hka : k = a
    · subst hka; rw [hwa]
    · have := hL k (by omega) hki
      simp only [Bool.not_eq_true'] at this
      rw [Less_false_iff, hwa] at this
      exact this
  · intro k hik hkb
    have := hR k (by omega) hkb
    simp only [Bool.not_eq_false'] at this
    rw [Less_iff, hwa] at this
    exact this

/-! ## `choosePivot`, `reverseRange`, `breakPatterns` -/

theorem order2_mem (data : List Comment) (x y s : Nat) :
    ((order2 data x y s).1 = x ∧ (order2 data x y s).2.1 = y) ∨
      ((order2 data x y s).1 = y ∧ (order2 data x y s).2.1 = x) := by
  unfold order2
  split
  · exact Or.inr ⟨rfl, rfl⟩
  · exact Or.inl ⟨rfl, rfl⟩

theorem median_mem (data : List Comment) (x y z s : Nat) :
    (median data x y z s).1 = x ∨ (median data x y z s).1 = y ∨ (median data x y z s).1 = z := by
  unfold median
  dsimp only
  have h1 := order2_mem data x y s
  generalize order2 data x y s = r1 at h1 ⊢
  have h2 := order2_mem data r1.2.1 z r1.2.2
  generalize order2 data r1.2.1 z r1.2.2 = r2 at h2 ⊢
  have h3 := order2_mem data r1.1 r2.1 r2.2.2
  generalize order2 data r1.1 r2.1 r2.2.2 = r3 at h3 ⊢
  omega

theorem medianAdjacent_mem (data : List Comment) (x s : Nat) :
    (medianAdjacent data x s).1 = x - 1 ∨ (medianAdjacent data x s).1 = x ∨
      (medianAdjacent data x s).1 = x + 1 :=
  median_mem data (x - 1) x (x + 1) s

theorem choosePivot_bounds (data : List Comment) (a b : Nat) (h : 8 ≤ b - a) :
    a ≤ (choosePivot data a b).1 ∧ (choosePivot data a b).1 < b := by
  have hfst : ∀ (r : Nat × Nat),
      (if r.2 = 0 then (r.1, sortedHint.increasingHint)
        else if r.2 = 4 * 3 then (r.1, sortedHint.decreasingHint)
        else (r.1, sortedHint.unknownHint)).1 = r.1 := by
    intro r; split
    · rfl
    · split <;> rfl
  unfold choosePivot
  dsimp only
  rw [hfst, if_pos h]
  by_cases h50 : 50 ≤ b - a
  · rw [if_pos h50]
    have m1 := medianAdjacent_mem data (a + (b - a) / 4 * 1) 0
    generalize medianAdjacent data (a + (b - a) / 4 * 1) 0 = r1 at m1
    have m2 := medianAdjacent_mem data (a + (b - a) / 4 * 2) r1.2
    generalize medianAdjacent data (a + (b - a) / 4 * 2) r1.2 = r2 at m2
    have m3 := medianAdjacent_mem data (a + (b - a) / 4 * 3) r2.2
    generalize medianAdjacent data (a + (b - a) / 4 * 3) r2.2 = r3 at m3
    have m4 := median_mem data r1.1 r2.1 r3.1 r3.2
    generalize median data r1.1 r2.1 r3.1 r3.2 = r4 at m4
    omega
  · rw [if_neg h50]
    have m4 := median_mem data (a + (b - a) / 4 * 1) (a + (b - a) / 4 * 2)
      (a + (b - a) / 4 * 3) 0
    generalize median data (a + (b - a) / 4 * 1) (a + (b - a) / 4 * 2)
      (a + (b - a) / 4 * 3) 0 = r4 at m4
    omega

theorem reverseRange_loop_keeps (a b : Nat) :
    ∀ (fuel i j : Nat) (v : List Comment), a ≤ i → j < b → b ≤ v.length →
      Keeps v (reverseRange.loop fuel i j v) a b := by
  intro fuel
  induction fuel with
  | zero => intro i j v _ _ _; exact Keeps.refl _ _ _
  | succ fuel ih =>
    intro i j v hi hj hb
    simp only [reverseRange.loop]
    split
    · rename_i hij
      exact (Keeps.swap v hi (by omega) (by omega) hj hb).trans
        (ih (i + 1) (j - 1) (Swap v i j) (by omega) (by omega) (by rw [Swap_length]; exact hb))
    · exact Keeps.refl _ _ _

theorem reverseRange_keeps (data : List Comment) (a b : Nat) (hab : a < b)
    (hb : b ≤ data.length) : Keeps data (reverseRange data a b) a b :=
  reverseRange_loop_keeps a b (b - a) a (b - 1) data (Nat.le_refl _) (by omega) hb

theorem nextPowerOfTwo_le (length : Nat) (h : length ≠ 0) : nextPowerOfTwo length ≤ 2 * length := by
  unfold nextPowerOfTwo bitsLen
  rw [if_neg h, Nat.one_shiftLeft, Nat.pow_succ]
  have := Nat.log2_self_le h
  omega

theorem foldl_invariant_mem {σ : Type} (Inv : σ → Prop) (step : σ → Nat → σ) :
    ∀ (l : List Nat) (st : σ), Inv st → (∀ st i, i ∈ l → Inv st → Inv (step st i)) →
      Inv (l.foldl step st) := by
  intro l
  induction l with
  | nil => intro st h _; exact h
  | cons i l ih =>
    intro st h hstep
    rw [List.foldl_cons]
    exact ih _ (hstep st i (List.mem_cons_self _ _) h)
      (fun st j hj => hstep st j (List.mem_cons_of_mem _ hj))

theorem breakPatterns_keeps (data : List Comment) (a b : Nat) (hb : b ≤ data.length) :
    Keeps data (breakPatterns data a b) a b := by
  unfold breakPatterns
  dsimp only
  split
  · rename_i h8
    apply foldl_invariant_mem (fun st : Nat × List Comment => Keeps data st.2 a b)
    · exact Keeps.refl _ _ _
    · intro st i hi hk
      have hi3 : i < 3 := List.mem_range.1 hi
      have hlen := hk.length
      have hmod := nextPowerOfTwo_le (b - a) (by omega)
      have hand : xorshiftNext st.1 &&& (nextPowerOfTwo (b - a) - 1) ≤
          nextPowerOfTwo (b - a) - 1 := Nat.and_le_right
      generalize xorshiftNext st.1 &&& (nextPowerOfTwo (b - a) - 1) = other at hand
      dsimp only
      refine hk.trans (Keeps.swap st.2 (by omega) (by omega) (by omega) ?_ (by omega))
      split <;> omega
  · exact Keeps.refl _ _ _

/-! ## `partialInsertionSort` -/

theorem LowerBound.keeps {v v' : List Comment} {a b : Nat} (h : LowerBound v a b)
    (hk : Keeps v v' a b) (hb : b ≤ v.length) : LowerBound v' a b := by
  intro ha k hak hkb
  rw [hk.keyAt_outside (Or.inl (by omega))]
  exact hk.le_keyAt hb _ (h ha) k hak hkb

theorem LowerBound.shrink {v : List Comment} {a b b' : Nat} (h : LowerBound v a b)
    (hb : b' ≤ b) : LowerBound v a b' :=
  fun ha k hak hkb => h ha k hak (by omega)

theorem partialInsertionSort_scan_spec (v : List Comment) (b : Nat) :
    ∀ (fuel i : Nat), i ≤ partialInsertionSort.scan v b fuel i ∧
      (i ≤ b → partialInsertionSort.scan v b fuel i ≤ b) ∧
      ∀ k, i ≤ k → k < partialInsertionSort.scan v b fuel i →
        keyAt v (k - 1) ≤ keyAt v k := by
  intro fuel
  induction fuel with
  | zero =>
    intro i
    simp only [partialInsertionSort.scan]
    exact ⟨Nat.le_refl _, fun h => h, fun k h1 h2 => by omega⟩
  | succ fuel ih =>
    intro i
    simp only [partialInsertionSort.scan]
    by_cases hc : (decide (i < b) && !Less v i (i - 1)) = true
    · rw [if_pos hc]
      simp only [Bool.and_eq_true, decide_eq_true_eq, Bool.not_eq_true'] at hc
      obtain ⟨h1, h2, h3⟩ := ih (i + 1)
      refine ⟨by omega, fun _ => h2 (by omega), fun k hk1 hk2 => ?_⟩
      by_cases hki : k = i
      · subst hki; exact (Less_false_iff _ _ _).1 hc.2
      · exact h3 k (by omega) hk2
    · rw [if_neg hc]
      exact ⟨Nat.le_refl _, fun h => h, fun k h1 h2 => by omega⟩

theorem SortedOn.extend {v : List Comment} {a i i' : Nat} (h : SortedOn v a i)
    (hadj : ∀ k, i ≤ k → k < i' → keyAt v (k - 1) ≤ keyAt v k) : SortedOn v a i' := by
  intro p q
  induction q with
  | zero => intro _ hpq _; omega
  | succ q ih =>
    intro hp hpq hq
    by_cases hqi : q + 1 < i
    · exact h p (q + 1) hp hpq hqi
    · have h1 := hadj (q + 1) (by omega) hq
      simp only [Nat.add_sub_cancel] at h1
      by_cases hpq' : p = q
      · subst hpq'; exact h1
      · exact le_trans (ih hp (by omega) (by omega)) h1

theorem shiftLeft_eq (a i : Nat) :
    ∀ (j : Nat) (v : List Comment), a ≤ j → j ≤ i → i < v.length →
      (0 < a → ∀ k, a ≤ k → k ≤ i → keyAt v (a - 1) ≤ keyAt v k) →
      partialInsertionSort.shiftLeft j v = insertionSort.shift a j v := by
  intro j
  induction j with
  | zero => intro v _ _ _ _; rfl
  | succ j ih =>
    intro v haj hji hi hlb
    simp only [partialInsertionSort.shiftLeft, insertionSort.shift]
    by_cases haj' : a < j + 1
    · cases hL : Less v (j + 1) j
      · simp
      · simp only [Bool.not_true, Bool.false_eq_true, if_false, haj', decide_True, Bool.and_self,
          if_true]
        apply ih (Swap v (j + 1) j) (by omega) (by omega) (by rw [Swap_length]; exact hi)
        intro ha k hak hki
        have hj1 : j + 1 < v.length := by omega
        have hj0 : j < v.length := by omega
        rw [keyAt_Swap_of_ne v (show a - 1 ≠ j + 1 by omega) (show a - 1 ≠ j by omega)]
        by_cases hk1 : k = j + 1
        · subst hk1
          rw [keyAt_Swap_left v hj1 hj0]
          exact hlb ha j (by omega) (by omega)
        · by_cases hk0 : k = j
          · subst hk0
            rw [keyAt_Swap_right v hj1 hj0]
            exact hlb ha (k + 1) (by omega) (by omega)
          · rw [keyAt_Swap_of_ne v hk1 hk0]
            exact hlb ha k hak hki
    · have haeq : a = j + 1 := by omega
      have := hlb (by omega) (j + 1) (by omega) hji
      rw [haeq, Nat.add_sub_cancel] at this
      have hL : Less v (j + 1) j = false := (Less_false_iff _ _ _).2 this
      simp [hL, haj']

theorem shiftRight_keeps (i b : Nat) :
    ∀ (fuel j : Nat) (v : List Comment), i + 1 ≤ j → b ≤ v.length →
      Keeps v (partialInsertionSort.shiftRight b fuel j v) i b := by
  intro fuel
  induction fuel with
  | zero => intro j v _ _; exact Keeps.refl _ _ _
  | succ fuel ih =>
    intro j v hj hb
    simp only [partialInsertionSort.shiftRight]
    split
    · rename_i hjb
      split
      · exact Keeps.refl _ _ _
      · exact (Keeps.swap v (by omega) hjb (by omega) (by omega) hb).trans
          (ih (j + 1) (Swap v j (j - 1)) (by omega) (by rw [Swap_length]; exact hb))
    · exact Keeps.refl _ _ _

theorem partialInsertionSort_loop_spec (a b : Nat) :
    ∀ (steps i : Nat) (v : List Comment), a + 1 ≤ i → i ≤ b → b ≤ v.length →
      SortedOn v a i → LowerBound v a b →
      Keeps v (partialInsertionSort.loop a b steps i v).1 a b ∧
        ((partialInsertionSort.loop a b steps i v).2 = true →
          SortedOn (partialInsertionSort.loop a b steps i v).1 a b) := by
  intro steps
  induction steps with
  | zero =>
    intro i v _ _ _ _ _
    simp only [partialInsertionSort.loop]
    exact ⟨Keeps.refl _ _ _, fun h => absurd h (by simp)⟩
  | succ steps ih =>
    intro i v hai hib hb hs hlb
    simp only [partialInsertionSort.loop]
    obtain ⟨s1, s2, s3⟩ := partialInsertionSort_scan_spec v b (b - i) i
    have s2' := s2 hib
    have hs' : SortedOn v a (partialInsertionSort.scan v b (b - i) i) := hs.extend s3
    generalize partialInsertionSort.scan v b (b - i) i = i' at s1 s2' s3 hs'
    by_cases hib' : i' = b
    · rw [if_pos hib']
      exact ⟨Keeps.refl _ _ _, fun _ => hib' ▸ hs'⟩
    · rw [if_neg hib']
      by_cases h50 : b - a < 50
      · rw [if_pos h50]
        exact ⟨Keeps.refl _ _ _, fun h => absurd h (by simp)⟩
      · rw [if_neg h50]
        have hk1 : Keeps v (Swap v i' (i' - 1)) a b :=
          Keeps.swap v (by omega) (by omega) (by omega) (by omega) hb
        have hlen1 : (Swap v i' (i' - 1)).length = v.length := Swap_length _ _ _
        have hlb1 : LowerBound (Swap v i' (i' - 1)) a b := hlb.keeps hk1 hb
        generalize hv1 : Swap v i' (i' - 1) = v1 at hk1 hlen1 hlb1
        have h2 : Keeps v1 (if 2 ≤ i' - a then partialInsertionSort.shiftLeft (i' - 1) v1 else v1)
              a i' ∧
            SortedOn (if 2 ≤ i' - a then partialInsertionSort.shiftLeft (i' - 1) v1 else v1)
              a i' := by
          split
          · rename_i h2a
            rw [shiftLeft_eq a (i' - 1) (i' - 1) v1 (by omega) (Nat.le_refl _) (by omega)
              (fun ha k hak hki => hlb1 ha k hak (by omega))]
            have := insertionSort_shift_spec a (i' - 1) (i' - 1) v1 (by omega) (Nat.le_refl _)
              (by omega)
              (by
                intro p q hp hpq hq hpne hqne
                rw [← hv1, keyAt_Swap_of_ne v (by omega) (by omega),
                  keyAt_Swap_of_ne v (by omega) (by omega)]
                exact hs' p q hp hpq (by omega))
              (fun q h1 h2 => by omega)
            rwa [show i' - 1 + 1 = i' by omega] at this
          · exact ⟨Keeps.refl _ _ _, fun p q hp hpq hq => by omega⟩
        generalize (if 2 ≤ i' - a then partialInsertionSort.shiftLeft (i' - 1) v1 else v1) = v2
          at h2
        obtain ⟨hk2, hs2⟩ := h2
        have hlen2 : v2.length = v.length := by rw [hk2.length, hlen1]
        have h3 : Keeps v2 (if 2 ≤ b - i' then
            partialInsertionSort.shiftRight b (b - (i' + 1)) (i' + 1) v2 else v2) i' b := by
          split
          · exact shiftRight_keeps i' b _ _ v2 (Nat.le_refl _) (by omega)
          · exact Keeps.refl _ _ _
        generalize (if 2 ≤ b - i' then
            partialInsertionSort.shiftRight b (b - (i' + 1)) (i' + 1) v2 else v2) = v3 at h3
        have hk3 : Keeps v v3 a b :=
          hk1.trans ((hk2.widen (Nat.le_refl _) (by omega)).trans (h3.widen (by omega)
            (Nat.le_refl _)))
        have hs3 : SortedOn v3 a i' := by
          intro p q hp hpq hq
          rw [h3.keyAt_outside (Or.inl (by omega)), h3.keyAt_outside (Or.inl (by omega))]
          exact hs2 p q hp hpq hq
        have := ih i' v3 (by omega) s2' (by rw [hk3.length]; exact hb) hs3 (hlb.keeps hk3 hb)
        exact ⟨hk3.trans this.1, this.2⟩

theorem partialInsertionSort_spec (data : List Comment) (a b : Nat) (hab : a < b)
    (hb : b ≤ data.length) (hlb : LowerBound data a b) :
    Keeps data (partialInsertionSort data a b).1 a b ∧
      ((partialInsertionSort data a b).2 = true → SortedOn (partialInsertionSort data a b).1 a b) :=
  partialInsertionSort_loop_spec a b 5 (a + 1) data (Nat.le_refl _) (by omega) hb
    (fun p q hp hpq hq => by omega) hlb

/-! ## The fuel of the remaining loops is enough -/

theorem reverseRange_loop_fuel :
    ∀ (fuel extra i j : Nat) (v : List Comment), j - i ≤ fuel →
      reverseRange.loop (fuel + extra) i j v = reverseRange.loop fuel i j v := by
  intro fuel
  induction fuel with
  | zero =>
    intro extra i j v h
    cases extra with
    | zero => rfl
    | succ extra =>
      simp only [Nat.zero_add, reverseRange.loop]
      rw [if_neg (by omega)]
  | succ fuel ih =>
    intro extra i j v h
    rw [show fuel + 1 + extra = (fuel + extra) + 1 by omega]
    simp only [reverseRange.loop]
    split
    · exact ih extra (i + 1) (j - 1) _ (by omega)
    · rfl

theorem partialInsertionSort_scan_fuel (v : List Comment) (b : Nat) :
    ∀ (fuel extra i : Nat), b - i ≤ fuel →
      partialInsertionSort.scan v b (fuel + extra) i = partialInsertionSort.scan v b fuel i := by
  intro fuel
  induction fuel with
  | zero =>
    intro extra i h
    cases extra with
    | zero => rfl
    | succ extra =>
      simp only [Nat.zero_add, partialInsertionSort.scan]
      rw [if_neg]
      simp only [Bool.and_eq_true, decide_eq_true_eq, not_and]
      intro hlt
      omega
  | succ fuel ih =>
    intro extra i h
    rw [show fuel + 1 + extra = (fuel + extra) + 1 by omega]
    simp only [partialInsertionSort.scan]
    split
    · exact ih extra (i + 1) (by omega)
    · rfl

theorem shiftRight_fuel (b : Nat) :
    ∀ (fuel extra j : Nat) (v : List Comment), b - j ≤ fuel →
      partialInsertionSort.shiftRight b (fuel + extra) j v =
        partialInsertionSort.shiftRight b fuel j v := by
  intro fuel
  induction fuel with
  | zero =>
    intro extra j v h
    cases extra with
    | zero => rfl
    | succ extra =>
      simp only [Nat.zero_add, partialInsertionSort.shiftRight]
      rw [if_neg (by omega)]
  | succ fuel ih =>
    intro extra j v h
    rw [show fuel + 1 + extra = (fuel + extra) + 1 by omega]
    simp only [partialInsertionSort.shiftRight]
    split
    · split
      · rfl
      · exact ih extra (j + 1) _ (by omega)
    · rfl

/-! ## `pdqsort` and `sort.Sort` -/

theorem SortedOn.join {v : List Comment} {a mid b : Nat} (hl : SortedOn v a mid)
    (hr : SortedOn v (mid + 1) b) (hle : ∀ k, a ≤ k → k < mid → keyAt v k ≤ keyAt v mid)
    (hge : ∀ k, mid < k → k < b → keyAt v mid ≤ keyAt v k) : SortedOn v a b := by
  intro p q hp hpq hq
  by_cases hqm : q < mid
  · exact hl p q hp hpq hqm
  · by_cases hpm : mid < p
    · exact hr p q (by omega) hpq hq
    · by_cases hpe : p = mid
      · subst hpe; exact hge q hpq hq
      · by_cases hqe : q = mid
        · subst hqe; exact hle p hp hpq
        · exact le_trans (hle p hp (by omega)) (hge q (by omega) hq)

theorem SortedOn.of_keeps {v v' : List Comment} {a b a' b' : Nat} (h : SortedOn v a b)
    (hk : Keeps v v' a' b') (hdis : b ≤ a' ∨ b' ≤ a) : SortedOn v' a b := by
  intro p q hp hpq hq
  rw [hk.keyAt_outside (by omega), hk.keyAt_outside (by omega)]
  exact h p q hp hpq hq

theorem pdqsort_spec :
    ∀ (fuel : Nat) (data : List Comment) (a b limit : Nat) (wb wp : Bool), a ≤ b →
      b ≤ data.length → b - a ≤ fuel → LowerBound data a b →
      Sorts data a b (pdqsort fuel data a b limit wb wp) := by
  intro fuel
  induction fuel with
  | zero =>
    intro data a b limit wb wp hab hb hf hlb
    simp only [pdqsort]
    exact ⟨Keeps.refl _ _ _, fun i j _ _ _ => by omega⟩
  | succ fuel ih =>
    intro data a b limit wb wp hab hb hf hlb
    rw [pdqsort]
    by_cases hlen12 : b - a ≤ 12
    · rw [if_pos hlen12]
      exact insertionSort_spec data a b hb
    · rw [if_neg hlen12]
      by_cases hlim : limit = 0
      · rw [if_pos hlim]
        exact heapSort_spec data a b hab hb
      · rw [if_neg hlim]
        lift_lets
        extract_lets d1 limit1 ph decreasing d2 pivot hint tried d3 rE rP d4 mid wasPartitioned
          leftLen rightLen balanceThreshold wbL d5L wbR d5R
        have hd1 : Keeps data d1 a b := by
          simp only [d1]
          split
          · exact breakPatterns_keeps data a b hb
          · exact Keeps.refl _ _ _
        have hph : a ≤ ph.1 ∧ ph.1 < b := choosePivot_bounds d1 a b (by omega)
        have hd2 : Keeps d1 d2 a b := by
          simp only [d2]
          split
          · exact reverseRange_keeps d1 a b (by omega) (by rw [hd1.length]; exact hb)
          · exact Keeps.refl _ _ _
        have hpiv : a ≤ pivot ∧ pivot < b := by
          simp only [pivot]
          split <;> omega
        have hk2 : Keeps data d2 a b := hd1.trans hd2
        have hlb2 : LowerBound d2 a b := hlb.keeps hk2 hb
        have htried : Keeps d2 tried.1 a b ∧ (tried.2 = true → SortedOn tried.1 a b) := by
          simp only [tried]
          split
          · exact partialInsertionSort_spec d2 a b (by omega) (by rw [hk2.length]; exact hb) hlb2
          · exact ⟨Keeps.refl _ _ _, fun h => absurd h (by simp)⟩
        have hk3 : Keeps data d3 a b := hk2.trans htried.1
        have hlen3 : d3.length = data.length := hk3.length
        have hlb3 : LowerBound d3 a b := hlb.keeps hk3 hb
        by_cases ht : tried.2 = true
        · rw [if_pos ht]
          exact ⟨hk3, htried.2 ht⟩
        · rw [if_neg ht]
          clear_value d3 pivot limit1
          clear htried hlb2 hk2 hd2 hph hd1 ht
          clear tried hint d2 decreasing ph d1
          by_cases hc : (decide (0 < a) && !Less d3 (a - 1) pivot) = true
          · rw [if_pos hc]
            simp only [Bool.and_eq_true, decide_eq_true_eq, Bool.not_eq_true'] at hc
            obtain ⟨ha0, hle⟩ := hc
            rw [Less_false_iff] at hle
            obtain ⟨hkr, hm1, hm2, hL, hR⟩ :=
              partitionEqual_spec d3 a b pivot hpiv.1 hpiv.2 (by omega)
            have hkr' : Keeps d3 rE.1 a b := hkr
            have hm1' : a + 1 ≤ rE.2 := hm1
            have hm2' : rE.2 ≤ b := hm2
            have hL' : ∀ k, a ≤ k → k < rE.2 → keyAt rE.1 k ≤ keyAt d3 pivot := hL
            have hR' : ∀ k, rE.2 ≤ k → k < b → keyAt d3 pivot < keyAt rE.1 k := hR
            clear_value rE
            clear hkr hm1 hm2 hL hR
            have hlenr : rE.1.length = data.length := by rw [hkr'.length, hlen3]
            have hall : ∀ k, a ≤ k → k < b → keyAt d3 pivot ≤ keyAt rE.1 k :=
              hkr'.le_keyAt (by omega) _ (fun k hak hkb => le_trans hle (hlb3 ha0 k hak hkb))
            have hrec := ih rE.1 rE.2 b limit1 wb wp hm2' (by omega) (by omega)
              (fun _ k hk1 hk2 =>
                le_trans (hL' (rE.2 - 1) (by omega) (by omega)) (le_of_lt (hR' k hk1 hk2)))
            obtain ⟨hkf, hsf⟩ := hrec
            refine ⟨hk3.trans (hkr'.trans (hkf.widen (by omega) (Nat.le_refl _))), ?_⟩
            have hright : ∀ k, rE.2 ≤ k → k < b →
                keyAt d3 pivot ≤ keyAt (pdqsort fuel rE.1 rE.2 b limit1 wb wp) k :=
              hkf.le_keyAt (by omega) _ (fun k h1 h2 => le_of_lt (hR' k h1 h2))
            intro p q hp hpq hq
            by_cases hpm : p < rE.2
            · rw [hkf.keyAt_outside (Or.inl hpm)]
              by_cases hqm : q < rE.2
              · rw [hkf.keyAt_outside (Or.inl hqm)]
                exact le_trans (hL' p hp hpm) (hall q (by omega) hq)
              · exact le_trans (hL' p hp hpm) (hright q (by omega) hq)
            · exact hsf p q (by omega) hpq hq
          · rw [if_neg hc]
            obtain ⟨hkr, hm1, hm2, hL, hR⟩ :=
              partition_spec d3 a b pivot hpiv.1 hpiv.2 (by omega)
            have hkr' : Keeps d3 d4 a b := hkr
            have hm1' : a ≤ mid := hm1
            have hm2' : mid < b := hm2
            have hL' : ∀ k, a ≤ k → k < mid → keyAt d4 k ≤ keyAt d4 mid := hL
            have hR' : ∀ k, mid < k → k < b → keyAt d4 mid ≤ keyAt d4 k := hR
            have hlen4 : d4.length = data.length := by rw [hkr'.length, hlen3]
            have hlb4 : LowerBound d4 a b := hlb3.keeps hkr' (by omega)
            clear hkr hm1 hm2 hL hR
            by_cases hlr : leftLen < rightLen
            · rw [if_pos hlr]
              obtain ⟨hk5, hs5⟩ := ih d4 a mid limit1 true true hm1' (by omega) (by omega)
                (hlb4.shrink (by omega))
              have hk5' : Keeps d4 d5L a mid := hk5
              have hs5' : SortedOn d5L a mid := hs5
              have hlen5 : d5L.length = data.length := by rw [hk5'.length, hlen4]
              have hmid5 : keyAt d5L mid = keyAt d4 mid := hk5'.keyAt_outside (Or.inr (by omega))
              have hL5 : ∀ k, a ≤ k → k < mid → keyAt d5L k ≤ keyAt d4 mid :=
                hk5'.keyAt_le (by omega) _ hL'
              have hR5 : ∀ k, mid < k → k < b → keyAt d4 mid ≤ keyAt d5L k := by
                intro k h1 h2
                rw [hk5'.keyAt_outside (Or.inr (by omega))]
                exact hR' k h1 h2
              clear_value d5L
              obtain ⟨hk6, hs6⟩ := ih d5L (mid + 1) b limit1 wbL wasPartitioned (by omega)
                (by omega) (by omega)
                (fun _ k h1 h2 => by
                  rw [Nat.add_sub_cancel, hmid5]; exact hR5 k (by omega) h2)
              refine ⟨hk3.trans (hkr'.trans ((hk5'.widen (Nat.le_refl _) (by omega)).trans
                (hk6.widen (by omega) (Nat.le_refl _)))), ?_⟩
              have hmid6 : keyAt (pdqsort fuel d5L (mid + 1) b limit1 wbL wasPartitioned) mid
                  = keyAt d4 mid := by
                rw [hk6.keyAt_outside (Or.inl (by omega)), hmid5]
              apply SortedOn.join (hs5'.of_keeps hk6 (Or.inl (by omega))) hs6
              · intro k h1 h2
                rw [hmid6, hk6.keyAt_outside (Or.inl (by omega))]
                exact hL5 k h1 h2
              · intro k h1 h2
                rw [hmid6]
                exact hk6.le_keyAt (by omega) _ (fun k h1 h2 => hR5 k (by omega) h2) k
                  (by omega) h2
            · rw [if_neg hlr]
              obtain ⟨hk5, hs5⟩ := ih d4 (mid + 1) b limit1 true true (by omega) (by omega)
                (by omega)
                (fun _ k h1 h2 => by rw [Nat.add_sub_cancel]; exact hR' k (by omega) h2)
              have hk5' : Keeps d4 d5R (mid + 1) b := hk5
              have hs5' : SortedOn d5R (mid + 1) b := hs5
              have hlen5 : d5R.length = data.length := by rw [hk5'.length, hlen4]
              have hmid5 : keyAt d5R mid = keyAt d4 mid := hk5'.keyAt_outside (Or.inl (by omega))
              have hR5 : ∀ k, mid + 1 ≤ k → k < b → keyAt d4 mid ≤ keyAt d5R k :=
                hk5'.le_keyAt (by omega) _ (fun k h1 h2 => hR' k (by omega) h2)
              have hL5 : ∀ k, a ≤ k → k < mid → keyAt d5R k ≤ keyAt d4 mid := by
                intro k h1 h2
                rw [hk5'.keyAt_outside (Or.inl (by omega))]
                exact hL' k h1 h2
              have hlb5 : LowerBound d5R a mid :=
                (hlb4.keeps (hk5'.widen (by omega) (Nat.le_refl _)) (by omega)).shrink (by omega)
              clear_value d5R
              obtain ⟨hk6, hs6⟩ := ih d5R a mid limit1 wbR wasPartitioned hm1' (by omega)
                (by omega) hlb5
              refine ⟨hk3.trans (hkr'.trans ((hk5'.widen (by omega) (Nat.le_refl _)).trans
                (hk6.widen (Nat.le_refl _) (by omega)))), ?_⟩
              have hmid6 : keyAt (pdqsort fuel d5R a mid limit1 wbR wasPartitioned) mid
                  = keyAt d4 mid := by
                rw [hk6.keyAt_outside (Or.inr (by omega)), hmid5]
              apply SortedOn.join hs6 (hs5'.of_keeps hk6 (Or.inr (by omega)))
              · intro k h1 h2
                rw [hmid6]
                exact hk6.keyAt_le (by omega) _ hL5 k h1 h2
              · intro k h1 h2
                rw [hmid6, hk6.keyAt_outside (Or.inr (by omega))]
                exact hR5 k (by omega) h2

theorem sortSort_spec (data : List Comment) :
    (sortSort data).Perm data ∧ (sortSort data).Pairwise (fun c d => c.Target ≤ d.Target) := by
  unfold sortSort Len
  dsimp only
  split
  · rename_i h
    refine ⟨List.Perm.refl _, ?_⟩
    apply SortedOn.pairwise
    intro i j _ hij hj
    omega
  · have := pdqsort_spec data.length data 0 data.length (bitsLen data.length) true true
      (Nat.zero_le _) (Nat.le_refl _) (by omega) (fun h => by omega)
    refine ⟨this.1.1, ?_⟩
    apply SortedOn.pairwise
    rw [this.1.length]
    exact this.2

/-! ## Lemmas on `help.go` -/

theorem filterStep_foldl (nodes : List Node) (acc : List Comment) :
    nodes.foldl filterStep acc = acc ++ commentsOf nodes := by
  induction nodes generalizing acc with
  | nil => simp [commentsOf]
  | cons n nodes ih =>
    rw [List.foldl_cons, ih]
    cases n with
    | comment c => simp [commentsOf, filterStep]
    | other => simp [commentsOf, filterStep]

theorem filterComments_eq (nodes : List Node) : filterComments nodes = commentsOf nodes := by
  have h : filterComments nodes = nodes.foldl filterStep [] := rfl
  rw [h, filterStep_foldl]
  rfl

theorem foldl_write (p : Comment → Prop) [DecidablePred p] (line : Comment → String) :
    ∀ (cs : List Comment) (w : String),
      cs.foldl (fun w c => if p c then w else Fprintf w (line c)) w =
        w ++ concatAll ((cs.filter fun c => ¬ p c).map line) := by
  intro cs
  induction cs with
  | nil => intro w; simp [concatAll]
  | cons c cs ih =>
    intro w
    rw [List.foldl_cons, ih]
    by_cases h : p c
    · simp [h, List.filter_cons]
    · simp [h, List.filter_cons, concatAll, Fprintf, String.append_assoc]

theorem length_le_len (s : String) : s.length ≤ len s := by
  unfold len String.length String.utf8ByteSize
  cases s with
  | mk l =>
    simp only
    induction l with
    | nil => simp [String.utf8ByteSize.go]
    | cons c l ih =>
      simp only [String.utf8ByteSize.go, List.length_cons]
      have := Char.utf8Size_pos c
      omega

theorem targetWidth_foldl (cs : List Comment) (n : Nat) :
    cs.foldl (fun n c => if len c.Target > n then len c.Target else n) n =
      max n (longestTarget cs) := by
  induction cs generalizing n with
  | nil => simp [longestTarget]
  | cons c cs ih =>
    rw [List.foldl_cons, ih]
    simp only [longestTarget, List.map_cons, List.foldr_cons]
    split <;> omega

theorem targetWidth_eq (cs : List Comment) : targetWidth cs = longestTarget cs := by
  unfold targetWidth
  rw [targetWidth_foldl]
  omega

theorem longestTarget_perm {cs ds : List Comment} (h : cs.Perm ds) :
    longestTarget cs = longestTarget ds := by
  induction h with
  | nil => rfl
  | cons c _ ih => simp only [longestTarget, List.map_cons, List.foldr_cons] at ih ⊢; rw [ih]
  | swap c d l => simp only [longestTarget, List.map_cons, List.foldr_cons]; omega
  | trans _ _ ih1 ih2 => rw [ih1, ih2]

theorem longestTarget_filter (cs : List Comment) :
    longestTarget (cs.filter fun c => c.Target ≠ "") = longestTarget cs := by
  induction cs with
  | nil => rfl
  | cons c cs ih =>
    by_cases h : c.Target = ""
    · have h0 : len c.Target = 0 := by rw [h]; rfl
      simp only [List.filter_cons, h, ne_eq, not_true_eq_false, decide_False, Bool.false_eq_true,
        if_false, ih]
      simp only [longestTarget, List.map_cons, List.foldr_cons, h]
      have : len "" = 0 := rfl
      omega
    · simp only [List.filter_cons, h, ne_eq, not_false_eq_true, decide_True, if_true]
      simp only [longestTarget, List.map_cons, List.foldr_cons] at ih ⊢
      rw [ih]

theorem len_le_longestTarget {cs : List Comment} {c : Comment} (h : c ∈ cs) :
    len c.Target ≤ longestTarget cs := by
  induction cs with
  | nil => cases h
  | cons d cs ih =>
    simp only [longestTarget, List.map_cons, List.foldr_cons]
    rcases List.mem_cons.1 h with h | h
    · subst h; omega
    · have := ih h
      simp only [longestTarget] at this
      omega

theorem getComments_ok (ParseRecursive : Parser) (r : String) (nodes : List Node)
    (h : ParseRecursive r "/usr/local/include" = Except.ok nodes) :
    getComments ParseRecursive r = Except.ok (sortSort (commentsOf nodes)) := by
  simp only [getComments, h, filterComments_eq]

theorem getComments_error (ParseRecursive : Parser) (r : String) (e : GoError)
    (h : ParseRecursive r "/usr/local/include" = Except.error e) :
    getComments ParseRecursive r = Except.error (GoError.wrapped e "parsing") := by
  unfold getComments
  rw [h]
  rfl

/-! ## Stability of `insertionSort` -/

theorem Swap_cons_succ (c : Comment) (l : List Comment) (i j : Nat) :
    Swap (c :: l) (i + 1) (j + 1) = c :: Swap l i j := by
  simp [Swap]

theorem Swap_adjacent_append (A : List Comment) (x y : Comment) (C : List Comment) :
    Swap (A ++ x :: y :: C) (A.length + 1) A.length = A ++ y :: x :: C := by
  induction A with
  | nil => simp [Swap]
  | cons a A ih =>
    simp only [List.cons_append, List.length_cons]
    rw [Swap_cons_succ, ih]

theorem split_adjacent (v : List Comment) (j : Nat) (h : j + 1 < v.length) :
    v = v.take j ++ v[j] :: v[j + 1] :: v.drop (j + 2) := by
  conv_lhs => rw [← List.take_append_drop j v]
  congr 1
  rw [List.drop_eq_getElem_cons (by omega : j < v.length)]
  congr 1
  rw [List.drop_eq_getElem_cons (by omega : j + 1 < v.length)]

theorem filter_Swap_adjacent (v : List Comment) (j : Nat) (h : j + 1 < v.length)
    (hne : keyAt v (j + 1) ≠ keyAt v j) (t : String) :
    (Swap v (j + 1) j).filter (fun c => c.Target = t) = v.filter (fun c => c.Target = t) := by
  have hsplit := split_adjacent v j h
  have hlen : (v.take j).length = j := by simp; omega
  have hk1 : keyAt v (j + 1) = v[j + 1].Target := by
    unfold keyAt; rw [List.getD_eq_getElem _ _ h]
  have hk0 : keyAt v j = v[j].Target := by
    unfold keyAt; rw [List.getD_eq_getElem _ _ (by omega : j < v.length)]
  rw [hk1, hk0] at hne
  generalize v[j] = x at hsplit hne
  generalize v[j + 1] = y at hsplit hne
  generalize v.take j = A at hsplit hlen
  generalize v.drop (j + 2) = C at hsplit
  subst hsplit
  subst hlen
  rw [Swap_adjacent_append]
  simp only [List.filter_append, List.filter_cons]
  by_cases hx : x.Target = t <;> by_cases hy : y.Target = t
  · exact absurd (hy.trans hx.symm) hne
  · simp [hx, hy]
  · simp [hx, hy]
  · simp [hx, hy]

theorem insertionSort_shift_stable (a : Nat) (t : String) :
    ∀ (j : Nat) (v : List Comment), j < v.length →
      (insertionSort.shift a j v).length = v.length ∧
        (insertionSort.shift a j v).filter (fun c => c.Target = t) =
          v.filter (fun c => c.Target = t) := by
  intro j
  induction j with
  | zero => intro v _; exact ⟨rfl, rfl⟩
  | succ j ih =>
    intro v hj
    simp only [insertionSort.shift]
    split
    · rename_i hc
      simp only [Bool.and_eq_true, decide_eq_true_eq] at hc
      have hlt := (Less_iff _ _ _).1 hc.2
      have := ih (Swap v (j + 1) j) (by rw [Swap_length]; omega)
      rw [Swap_length] at this
      exact ⟨this.1, this.2.trans (filter_Swap_adjacent v j hj (ne_of_lt hlt) t)⟩
    · exact ⟨rfl, rfl⟩

theorem insertionSort_stable (data : List Comment) (a b : Nat) (hb : b ≤ data.length)
    (t : String) :
    (insertionSort data a b).filter (fun c => c.Target = t) =
      data.filter (fun c => c.Target = t) := by
  unfold insertionSort
  have := foldl_range'_invariant (fun v i => insertionSort.shift a i v)
    (fun _ v => v.length = data.length ∧
      v.filter (fun c => c.Target = t) = data.filter (fun c => c.Target = t))
    (b - (a + 1)) (a + 1) data ⟨rfl, rfl⟩
    (by
      intro i v hi hib ⟨hlen, hf⟩
      have := insertionSort_shift_stable a t i v (by omega)
      exact ⟨this.1.trans hlen, this.2.trans hf⟩)
  exact this.2

theorem sortSort_small (data : List Comment) (h : data.length ≤ 12) :
    sortSort data = insertionSort data 0 data.length ∨ sortSort data = data := by
  unfold sortSort Len
  dsimp only
  split
  · exact Or.inr rfl
  · left
    obtain ⟨n, hn⟩ : ∃ n, data.length = n + 1 := ⟨data.length - 1, by omega⟩
    rw [hn, pdqsort, if_pos (by omega)]

theorem sortSort_stable_small (data : List Comment) (h : data.length ≤ 12) (t : String) :
    (sortSort data).filter (fun c => c.Target = t) = data.filter (fun c => c.Target = t) := by
  rcases sortSort_small data h with h1 | h1
  · rw [h1]; exact insertionSort_stable data 0 data.length (Nat.le_refl _) t
  · rw [h1]

theorem OutputAllShort_eq (ParseRecursive : Parser) (r w : String) (nodes : List Node)
    (h : ParseRecursive r "/usr/local/include" = Except.ok nodes) :
    OutputAllShort ParseRecursive r w =
      (w ++ "\n" ++ concatAll (((sortSort (commentsOf nodes)).filter fun c => c.Target ≠ "").map
        fun c => "  " ++ (c.Target ++ spaces (longestTarget ((sortSort (commentsOf nodes)).filter
          fun c => c.Target ≠ "") + 2 - c.Target.length)) ++ " " ++
            firstLine c.Value ++ "\n") ++ "\n", none) := by
  unfold OutputAllShort
  rw [getComments_ok ParseRecursive r nodes h]
  simp only [Fprintf]
  rw [targetWidth_eq, ← longestTarget_filter (sortSort (commentsOf nodes))]
  have := foldl_write (fun c => c.Target = "") (fun c =>
    "  " ++ padString (longestTarget ((sortSort (commentsOf nodes)).filter
      fun c => c.Target ≠ "") + 2) c.Target ++ " " ++ firstLine c.Value ++ "\n")
    (sortSort (commentsOf nodes)) (w ++ "\n")
  simp only [Fprintf] at this
  rw [this]
  rfl

theorem OutputAllLong_eq (ParseRecursive : Parser) (r w : String) (nodes : List Node)
    (h : ParseRecursive r "/usr/local/include" = Except.ok nodes) :
    OutputAllLong ParseRecursive r w =
      (w ++ "\n" ++ concatAll (((sortSort (commentsOf nodes)).filter fun c => c.Target ≠ "").map
        fun c => "  " ++ c.Target ++ ":\n" ++ indent (indent c.Value) ++ "\n\n") ++ "\n",
        none) := by
  unfold OutputAllLong
  rw [getComments_ok ParseRecursive r nodes h]
  simp only [Fprintf]
  have := foldl_write (fun c => c.Target = "") (fun c =>
    "  " ++ c.Target ++ ":\n" ++ indent (indent c.Value) ++ "\n\n")
    (sortSort (commentsOf nodes)) (w ++ "\n")
  simp only [Fprintf] at this
  rw [this]

theorem OutputTargetLong_eq (ParseRecursive : Parser) (r w targetName : String)
    (nodes : List Node) (h : ParseRecursive r "/usr/local/include" = Except.ok nodes) :
    OutputTargetLong ParseRecursive r w targetName =
      (w ++ "\n" ++ concatAll (((sortSort (commentsOf nodes)).filter
        fun c => c.Target = targetName).map fun c => indent c.Value ++ "\n") ++ "\n", none) := by
  unfold OutputTargetLong
  rw [getComments_ok ParseRecursive r nodes h]
  simp only [Fprintf]
  have := foldl_write (fun c => c.Target ≠ targetName) (fun c => indent c.Value ++ "\n")
    (sortSort (commentsOf nodes)) (w ++ "\n")
  simp only [Fprintf, ne_eq, Decidable.not_not] at this
  simp only [ne_eq]
  rw [this]

theorem commentsOf_removeEmpty (nodes : List Node) :
    commentsOf (removeEmpty nodes) = (commentsOf nodes).filter fun c => c.Target ≠ "" := by
  induction nodes with
  | nil => rfl
  | cons n nodes ih =>
    cases n with
    | comment c =>
      by_cases hc : c.Target = ""
      · simp only [removeEmpty, commentsOf, List.filter_cons, hc, ne_eq, not_true_eq_false,
          decide_False, Bool.false_eq_true, if_false, List.filterMap_cons] at ih ⊢
        exact ih
      · simp only [removeEmpty, commentsOf, List.filter_cons, hc, ne_eq, not_false_eq_true,
          decide_True, if_true, List.filterMap_cons] at ih ⊢
        rw [ih]
    | other =>
      simp only [removeEmpty, commentsOf, List.filter_cons, decide_True, if_true,
        List.filterMap_cons] at ih ⊢
      exact ih

theorem sorted_unique {cs ds : List Comment} (hp : cs.Perm ds)
    (hc : cs.Pairwise (fun c d => c.Target ≤ d.Target))
    (hd : ds.Pairwise (fun c d => c.Target ≤ d.Target))
    (hn : (cs.map fun c => c.Target).Nodup) : cs = ds := by
  have hn' : (ds.map fun c => c.Target).Nodup := (hp.map _).nodup_iff.1 hn
  have strict : ∀ l : List Comment, l.Pairwise (fun c d => c.Target ≤ d.Target) →
      (l.map fun c => c.Target).Nodup → l.Pairwise (fun c d => c.Target < d.Target) := by
    intro l h1 h2
    have h3 : l.Pairwise (fun c d => c.Target ≠ d.Target) := List.pairwise_map.1 h2
    exact (h1.and h3).imp (fun h => lt_of_le_of_ne h.1 h.2)
  haveI : IsAntisymm Comment (fun c d => c.Target < d.Target) :=
    ⟨fun _ _ h1 h2 => absurd h1 (lt_asymm h2)⟩
  exact List.eq_of_perm_of_sorted hp (strict cs hc hn) (strict ds hd hn')

/-! ## The claims -/

theorem spaces_length (n : Nat) : (spaces n).length = n := by
  simp [spaces, String.length]

theorem sorted_qualifying (nodes : List Node) :
    ((sortSort (commentsOf nodes)).filter fun c => c.Target ≠ "").Perm
        ((commentsOf nodes).filter fun c => c.Target ≠ "") ∧
      ((sortSort (commentsOf nodes)).filter fun c => c.Target ≠ "").Pairwise
        (fun c d => c.Target ≤ d.Target) :=
  ⟨(sortSort_spec _).1.filter _, (sortSort_spec _).2.filter _⟩

/-- C1: when the parser succeeds, `OutputAllShort` writes a line break, then
for each comment with a non-empty target, in ascending order of target, two
spaces, the target padded with spaces to `width + 2` characters, a space, the
first line of the value and a line break, then a line break; `width` is the
length of the longest target. -/
theorem OutputAllShort_writes (ParseRecursive : Parser) (r w : String) (nodes : List Node)
    (h : ParseRecursive r "/usr/local/include" = Except.ok nodes) :
    ∃ cs : List Comment,
      cs.Perm ((commentsOf nodes).filter fun c => c.Target ≠ "") ∧
      cs.Pairwise (fun c d => c.Target ≤ d.Target) ∧
      (∀ c ∈ cs, (c.Target ++ spaces (longestTarget cs + 2 - c.Target.length)).length =
        longestTarget cs + 2) ∧
      OutputAllShort ParseRecursive r w =
        (w ++ "\n" ++ concatAll (cs.map fun c =>
          "  " ++ (c.Target ++ spaces (longestTarget cs + 2 - c.Target.length)) ++ " " ++
            firstLine c.Value ++ "\n") ++ "\n", none) := by
  refine ⟨(sortSort (commentsOf nodes)).filter fun c => c.Target ≠ "",
    (sorted_qualifying nodes).1, (sorted_qualifying nodes).2, ?_, ?_⟩
  · intro c hc
    rw [String.length_append, spaces_length]
    have := len_le_longestTarget hc
    have := length_le_len c.Target
    omega
  · unfold OutputAllShort
    rw [getComments_ok ParseRecursive r nodes h]
    simp only [Fprintf]
    rw [targetWidth_eq, ← longestTarget_filter (sortSort (commentsOf nodes))]
    have := foldl_write (fun c => c.Target = "") (fun c =>
      "  " ++ padString (longestTarget ((sortSort (commentsOf nodes)).filter
        fun c => c.Target ≠ "") + 2) c.Target ++ " " ++ firstLine c.Value ++ "\n")
      (sortSort (commentsOf nodes)) (w ++ "\n")
    simp only [Fprintf] at this
    rw [this]
    rfl

/-- Witness of C1: the parser returns the comments `build` and `clean`; the
text written is the text of the example. -/
theorem OutputAllShort_writes_witness :
    parseBuildClean "" "/usr/local/include" = Except.ok buildClean ∧
      (∃ cs : List Comment,
        cs.Perm ((commentsOf buildClean).filter fun c => c.Target ≠ "") ∧
        cs.Pairwise (fun c d => c.Target ≤ d.Target) ∧
        (∀ c ∈ cs, (c.Target ++ spaces (longestTarget cs + 2 - c.Target.length)).length =
          longestTarget cs + 2) ∧
        OutputAllShort parseBuildClean "" "" =
          ("" ++ "\n" ++ concatAll (cs.map fun c =>
            "  " ++ (c.Target ++ spaces (longestTarget cs + 2 - c.Target.length)) ++ " " ++
              firstLine c.Value ++ "\n") ++ "\n", none)) ∧
      OutputAllShort parseBuildClean "" "" =
        ("\n  build   Builds the project.\n  clean   Removes artifacts.\n\n", none) :=
  ⟨rfl, OutputAllShort_writes parseBuildClean "" "" buildClean rfl, by decide⟩

/-- C2: when the parser succeeds, `OutputAllLong` writes a line break, then
for each comment with a non-empty target, in ascending order of target, two
spaces, the target, a colon, a line break, the value indented twice and two
line breaks, then a line break. -/
theorem OutputAllLong_writes (ParseRecursive : Parser) (r w : String) (nodes : List Node)
    (h : ParseRecursive r "/usr/local/include" = Except.ok nodes) :
    ∃ cs : List Comment,
      cs.Perm ((commentsOf nodes).filter fun c => c.Target ≠ "") ∧
      cs.Pairwise (fun c d => c.Target ≤ d.Target) ∧
      OutputAllLong ParseRecursive r w =
        (w ++ "\n" ++ concatAll (cs.map fun c =>
          "  " ++ c.Target ++ ":\n" ++ indent (indent c.Value) ++ "\n\n") ++ "\n", none) := by
  refine ⟨(sortSort (commentsOf nodes)).filter fun c => c.Target ≠ "",
    (sorted_qualifying nodes).1, (sorted_qualifying nodes).2, ?_⟩
  unfold OutputAllLong
  rw [getComments_ok ParseRecursive r nodes h]
  simp only [Fprintf]
  have := foldl_write (fun c => c.Target = "") (fun c =>
    "  " ++ c.Target ++ ":\n" ++ indent (indent c.Value) ++ "\n\n")
    (sortSort (commentsOf nodes)) (w ++ "\n")
  simp only [Fprintf] at this
  rw [this]

/-- Witness of C2: the comments `build` and `clean`. -/
theorem OutputAllLong_writes_witness :
    parseBuildClean "" "/usr/local/include" = Except.ok buildClean ∧
      (∃ cs : List Comment,
        cs.Perm ((commentsOf buildClean).filter fun c => c.Target ≠ "") ∧
        cs.Pairwise (fun c d => c.Target ≤ d.Target) ∧
        OutputAllLong parseBuildClean "" "" =
          ("" ++ "\n" ++ concatAll (cs.map fun c =>
            "  " ++ c.Target ++ ":\n" ++ indent (indent c.Value) ++ "\n\n") ++ "\n", none)) ∧
      OutputAllLong parseBuildClean "" "" =
        ("\n  build:\n    Builds the project.\n    See docs.\n\n  clean:\n" ++
          "    Removes artifacts.\n\n\n", none) :=
  ⟨rfl, OutputAllLong_writes parseBuildClean "" "" buildClean rfl, by decide⟩

/-- C3: when the parser succeeds, `OutputTargetLong` writes a line break, then
for each comment of the sorted collection whose target is `targetName`, in
the order of that collection, the indented value and a line break, then a
line break; the other comments contribute nothing. -/
theorem OutputTargetLong_writes (ParseRecursive : Parser) (r w targetName : String)
    (nodes : List Node) (h : ParseRecursive r "/usr/local/include" = Except.ok nodes) :
    ∃ cs : List Comment,
      getComments ParseRecursive r = Except.ok cs ∧
      cs.Perm (commentsOf nodes) ∧
      cs.Pairwise (fun c d => c.Target ≤ d.Target) ∧
      OutputTargetLong ParseRecursive r w targetName =
        (w ++ "\n" ++ concatAll ((cs.filter fun c => c.Target = targetName).map fun c =>
          indent c.Value ++ "\n") ++ "\n", none) := by
  refine ⟨sortSort (commentsOf nodes), getComments_ok ParseRecursive r nodes h,
    (sortSort_spec _).1, (sortSort_spec _).2, ?_⟩
  unfold OutputTargetLong
  rw [getComments_ok ParseRecursive r nodes h]
  simp only [Fprintf]
  have := foldl_write (fun c => c.Target ≠ targetName) (fun c => indent c.Value ++ "\n")
    (sortSort (commentsOf nodes)) (w ++ "\n")
  simp only [Fprintf, ne_eq, Decidable.not_not] at this
  simp only [ne_eq]
  rw [this]

/-- Witness of C3: the target `build` among the comments `build` and `clean`. -/
theorem OutputTargetLong_writes_witness :
    parseBuildClean "" "/usr/local/include" = Except.ok buildClean ∧
      (∃ cs : List Comment,
        getComments parseBuildClean "" = Except.ok cs ∧
        cs.Perm (commentsOf buildClean) ∧
        cs.Pairwise (fun c d => c.Target ≤ d.Target) ∧
        OutputTargetLong parseBuildClean "" "" "build" =
          ("" ++ "\n" ++ concatAll ((cs.filter fun c => c.Target = "build").map fun c =>
            indent c.Value ++ "\n") ++ "\n", none)) ∧
      OutputTargetLong parseBuildClean "" "" "build" =
        ("\n  Builds the project.\n  See docs.\n\n", none) :=
  ⟨rfl, OutputTargetLong_writes parseBuildClean "" "" "build" buildClean rfl, by decide⟩

theorem stable_sorted_unique :
    ∀ (cs ds : List Comment), cs.Pairwise (fun c d => c.Target ≤ d.Target) →
      ds.Pairwise (fun c d => c.Target ≤ d.Target) →
      (∀ t : String, (cs.filter fun c => c.Target = t) = ds.filter fun c => c.Target = t) →
      cs = ds := by
  intro cs
  induction cs with
  | nil =>
    intro ds _ _ hf
    cases ds with
    | nil => rfl
    | cons d ds =>
      have := hf d.Target
      simp [List.filter_cons] at this
  | cons c cs ih =>
    intro ds hc hd hf
    cases ds with
    | nil =>
      have := hf c.Target
      simp [List.filter_cons] at this
    | cons d ds =>
      have hcin : c ∈ (d :: ds) := by
        have h1 : c ∈ (c :: cs).filter fun x => x.Target = c.Target := by
          simp [List.filter_cons]
        rw [hf c.Target] at h1
        exact (List.mem_filter.1 h1).1
      have hdin : d ∈ (c :: cs) := by
        have h1 : d ∈ (d :: ds).filter fun x => x.Target = d.Target := by
          simp [List.filter_cons]
        rw [← hf d.Target] at h1
        exact (List.mem_filter.1 h1).1
      have hdc : d.Target ≤ c.Target := by
        rcases List.mem_cons.1 hcin with h | h
        · rw [h]
        · exact (List.pairwise_cons.1 hd).1 c h
      have hcd : c.Target ≤ d.Target := by
        rcases List.mem_cons.1 hdin with h | h
        · rw [h]
        · exact (List.pairwise_cons.1 hc).1 d h
      have hT : d.Target = c.Target := le_antisymm hdc hcd
      have h0 := hf c.Target
      simp only [List.filter_cons, hT, decide_True, if_true] at h0
      have hceq : c = d := (List.cons.inj h0).1
      subst hceq
      congr 1
      apply ih ds (List.pairwise_cons.1 hc).2 (List.pairwise_cons.1 hd).2
      intro t
      by_cases ht : c.Target = t
      · subst ht
        exact (List.cons.inj h0).2
      · have := hf t
        simpa [List.filter_cons, ht] using this

theorem qualifying_eq (nodes : List Node)
    (hd : (commentsOf nodes).length ≤ 12 ∨
      (((commentsOf nodes).filter fun c => c.Target ≠ "").map fun c => c.Target).Nodup) :
    ((sortSort (commentsOf nodes)).filter fun c => c.Target ≠ "") =
      sortSort (commentsOf (removeEmpty nodes)) ∧
    ((sortSort (commentsOf (removeEmpty nodes))).filter fun c => c.Target ≠ "") =
      sortSort (commentsOf (removeEmpty nodes)) := by
  have hA := sorted_qualifying nodes
  have hB := sortSort_spec (commentsOf (removeEmpty nodes))
  rw [commentsOf_removeEmpty] at hB ⊢
  have hfst : ((sortSort (commentsOf nodes)).filter fun c => c.Target ≠ "") =
      sortSort ((commentsOf nodes).filter fun c => c.Target ≠ "") := by
    rcases hd with hd | hd
    · apply stable_sorted_unique _ _ hA.2 hB.2
      intro t
      have hsmall : ((commentsOf nodes).filter fun c => c.Target ≠ "").length ≤ 12 :=
        le_trans (List.length_filter_le _ _) hd
      rw [sortSort_stable_small _ hsmall t, List.filter_comm,
        sortSort_stable_small _ hd t, List.filter_comm]
    · have hnA : ((((sortSort (commentsOf nodes)).filter fun c => c.Target ≠ "")).map
          fun c => c.Target).Nodup := (hA.1.map _).nodup_iff.2 hd
      exact sorted_unique (hA.1.trans hB.1.symm) hA.2 hB.2 hnA
  refine ⟨hfst, ?_⟩
  rw [List.filter_eq_self]
  intro c hc
  have := (hB.1.mem_iff.1 hc)
  exact (List.mem_filter.1 this).2

/-- C4, amended: when the nodes have at most twelve comments or no two
comments share a non-empty target, and `targetName` is not empty, each of the
three functions writes the same text for the nodes and for the nodes without
the comments whose target is empty. -/
theorem empty_target_excluded (ParseRecursive ParseRecursive' : Parser) (r r' w : String)
    (targetName : String) (nodes : List Node)
    (h : ParseRecursive r "/usr/local/include" = Except.ok nodes)
    (h' : ParseRecursive' r' "/usr/local/include" = Except.ok (removeEmpty nodes))
    (hd : (commentsOf nodes).length ≤ 12 ∨
      (((commentsOf nodes).filter fun c => c.Target ≠ "").map fun c => c.Target).Nodup)
    (ht : targetName ≠ "") :
    OutputAllShort ParseRecursive r w = OutputAllShort ParseRecursive' r' w ∧
      OutputAllLong ParseRecursive r w = OutputAllLong ParseRecursive' r' w ∧
      OutputTargetLong ParseRecursive r w targetName =
        OutputTargetLong ParseRecursive' r' w targetName := by
  obtain ⟨e1, e2⟩ := qualifying_eq nodes hd
  refine ⟨?_, ?_, ?_⟩
  · rw [OutputAllShort_eq ParseRecursive r w nodes h,
      OutputAllShort_eq ParseRecursive' r' w (removeEmpty nodes) h', e2, e1]
  · rw [OutputAllLong_eq ParseRecursive r w nodes h,
      OutputAllLong_eq ParseRecursive' r' w (removeEmpty nodes) h', e2, e1]
  · rw [OutputTargetLong_eq ParseRecursive r w targetName nodes h,
      OutputTargetLong_eq ParseRecursive' r' w targetName (removeEmpty nodes) h', ← e1,
      List.filter_filter]
    have hf : (fun c : Comment => decide (c.Target = targetName)) =
        fun c => decide (c.Target = targetName) && decide (c.Target ≠ "") := by
      funext c
      by_cases hc : c.Target = targetName
      · simp [hc, ht]
      · simp [hc]
    rw [← hf]

/-- Witness of C4, amended: the comments `build` and `clean` together with a
comment without target and a node that is no comment, and the target `build`. -/
theorem empty_target_excluded_witness :
    parseWithFloating "" "/usr/local/include" = Except.ok withFloating ∧
      parseWithoutFloating "" "/usr/local/include" = Except.ok (removeEmpty withFloating) ∧
      ((commentsOf withFloating).length ≤ 12 ∨
        (((commentsOf withFloating).filter fun c => c.Target ≠ "").map
          fun c => c.Target).Nodup) ∧
      ("build" : String) ≠ "" ∧
      OutputAllShort parseWithFloating "" "" = OutputAllShort parseWithoutFloating "" "" ∧
      OutputAllLong parseWithFloating "" "" = OutputAllLong parseWithoutFloating "" "" ∧
      OutputTargetLong parseWithFloating "" "" "build" =
        OutputTargetLong parseWithoutFloating "" "" "build" :=
  ⟨rfl, rfl, by decide, by decide,
    empty_target_excluded parseWithFloating parseWithoutFloating "" "" "" "build" withFloating
      rfl rfl (by decide) (by decide)⟩

/-- Counterexample to C4 as stated: for thirteen comments, eleven of them for
the target `a` and one without target, `OutputAllLong` writes the comments of
`a` in one order and, once the comment without target is removed, in another
order. -/
theorem empty_target_excluded_counterexample :
    parseTies "" "/usr/local/include" = Except.ok tieNodes ∧
      parseTiesQualifying "" "/usr/local/include" = Except.ok (removeEmpty tieNodes) ∧
      OutputAllLong parseTies "" "" ≠ OutputAllLong parseTiesQualifying "" "" :=
  ⟨rfl, rfl, by decide⟩

/-- C6, failing input: for one comment without target and the empty target
name, `OutputTargetLong` writes the value of the comment between the two line
breaks, while the input has no comment with a non-empty target. -/
theorem OutputTargetLong_floating :
    parseFloating "" "/usr/local/include" = Except.ok [Node.comment ⟨"", "x"⟩] ∧
      ((commentsOf [Node.comment ⟨"", "x"⟩]).filter fun c => c.Target ≠ "") = [] ∧
      OutputTargetLong parseFloating "" "" "" = ("\n  x\n\n", none) ∧
      OutputAllShort parseFloating "" "" = ("\n\n", none) ∧
      OutputAllLong parseFloating "" "" = ("\n\n", none) :=
  ⟨rfl, by decide, by decide, by decide, by decide⟩

/-- C7: when the parser succeeds and no comment has the target `targetName`,
`OutputTargetLong` returns no error and writes two line breaks. -/
theorem OutputTargetLong_missing (ParseRecursive : Parser) (r w targetName : String)
    (nodes : List Node) (h : ParseRecursive r "/usr/local/include" = Except.ok nodes)
    (hmiss : ∀ c ∈ commentsOf nodes, c.Target ≠ targetName) :
    OutputTargetLong ParseRecursive r w targetName = (w ++ "\n\n", none) := by
  rw [OutputTargetLong_eq ParseRecursive r w targetName nodes h]
  have hnil : ((sortSort (commentsOf nodes)).filter fun c => c.Target = targetName) = [] := by
    rw [List.filter_eq_nil_iff]
    intro c hc
    have := hmiss c ((sortSort_spec _).1.mem_iff.1 hc)
    simpa using this
  rw [hnil]
  simp only [List.map_nil, concatAll, String.append_empty, String.append_assoc]
  rfl

/-- Witness of C7: the target `missing` among the comments `build` and
`clean`. -/
theorem OutputTargetLong_missing_witness :
    parseBuildClean "" "/usr/local/include" = Except.ok buildClean ∧
      (∀ c ∈ commentsOf buildClean, c.Target ≠ "missing") ∧
      OutputTargetLong parseBuildClean "" "" "missing" = ("" ++ "\n\n", none) :=
  ⟨rfl, by decide,
    OutputTargetLong_missing parseBuildClean "" "" "missing" buildClean rfl (by decide)⟩

/-- C8: each of the three functions returns an error exactly when the parser
does, the error is the error of the parser wrapped with the label `parsing`,
and when the parser succeeds the functions return no error. -/
theorem Output_error (ParseRecursive : Parser) (r w targetName : String) :
    ((OutputAllShort ParseRecursive r w).2 ≠ none ↔
        ∃ e, ParseRecursive r "/usr/local/include" = Except.error e) ∧
      ((OutputAllLong ParseRecursive r w).2 ≠ none ↔
        ∃ e, ParseRecursive r "/usr/local/include" = Except.error e) ∧
      ((OutputTargetLong ParseRecursive r w targetName).2 ≠ none ↔
        ∃ e, ParseRecursive r "/usr/local/include" = Except.error e) ∧
      (∀ e, ParseRecursive r "/usr/local/include" = Except.error e →
        (OutputAllShort ParseRecursive r w).2 = some (GoError.wrapped e "parsing") ∧
        (OutputAllLong ParseRecursive r w).2 = some (GoError.wrapped e "parsing") ∧
        (OutputTargetLong ParseRecursive r w targetName).2 =
          some (GoError.wrapped e "parsing")) ∧
      (∀ nodes, ParseRecursive r "/usr/local/include" = Except.ok nodes →
        (OutputAllShort ParseRecursive r w).2 = none ∧
        (OutputAllLong ParseRecursive r w).2 = none ∧
        (OutputTargetLong ParseRecursive r w targetName).2 = none) := by
  have herr : ∀ e, ParseRecursive r "/usr/local/include" = Except.error e →
      (OutputAllShort ParseRecursive r w).2 = some (GoError.wrapped e "parsing") ∧
      (OutputAllLong ParseRecursive r w).2 = some (GoError.wrapped e "parsing") ∧
      (OutputTargetLong ParseRecursive r w targetName).2 =
        some (GoError.wrapped e "parsing") := by
    intro e he
    simp only [OutputAllShort, OutputAllLong, OutputTargetLong,
      getComments_error ParseRecursive r e he, and_self]
  have hok : ∀ nodes, ParseRecursive r "/usr/local/include" = Except.ok nodes →
      (OutputAllShort ParseRecursive r w).2 = none ∧
      (OutputAllLong ParseRecursive r w).2 = none ∧
      (OutputTargetLong ParseRecursive r w targetName).2 = none := by
    intro nodes hn
    simp only [OutputAllShort, OutputAllLong, OutputTargetLong,
      getComments_ok ParseRecursive r nodes hn, and_self]
  refine ⟨?_, ?_, ?_, herr, hok⟩
  all_goals
    cases hp : ParseRecursive r "/usr/local/include" with
    | error e =>
      have := herr e hp
      simp [this.1, this.2.1, this.2.2]
    | ok nodes =>
      have := hok nodes hp
      simp [this.1, this.2.1, this.2.2]

/-- Witness of C8: a parser that fails, and a parser that succeeds. -/
theorem Output_error_witness :
    (OutputAllShort parseFailure "" "").2 =
        some (GoError.wrapped (GoError.failure "syntax error") "parsing") ∧
      (OutputAllLong parseFailure "" "").2 =
        some (GoError.wrapped (GoError.failure "syntax error") "parsing") ∧
      (OutputTargetLong parseFailure "" "" "build").2 =
        some (GoError.wrapped (GoError.failure "syntax error") "parsing") ∧
      (OutputAllShort parseBuildClean "" "").2 = none ∧
      (OutputAllLong parseBuildClean "" "").2 = none ∧
      (OutputTargetLong parseBuildClean "" "" "build").2 = none :=
  ⟨((Output_error parseFailure "" "" "build").2.2.2.1 _ rfl).1,
    ((Output_error parseFailure "" "" "build").2.2.2.1 _ rfl).2.1,
    ((Output_error parseFailure "" "" "build").2.2.2.1 _ rfl).2.2,
    ((Output_error parseBuildClean "" "" "build").2.2.2.2 _ rfl).1,
    ((Output_error parseBuildClean "" "" "build").2.2.2.2 _ rfl).2.1,
    ((Output_error parseBuildClean "" "" "build").2.2.2.2 _ rfl).2.2⟩

/-- C9, amended: in every line `OutputAllShort` writes for a comment with a
non-empty target, the first `width + 5` characters are the two spaces, the
target padded to `width + 2` characters and one space, and the first line of
the value begins at character offset `width + 5`; `width` is the length of
the longest target. -/
theorem OutputAllShort_offset (ParseRecursive : Parser) (r w : String) (nodes : List Node)
    (h : ParseRecursive r "/usr/local/include" = Except.ok nodes) :
    ∃ (cs : List Comment) (line : Comment → String),
      cs.Perm ((commentsOf nodes).filter fun c => c.Target ≠ "") ∧
      OutputAllShort ParseRecursive r w =
        (w ++ "\n" ++ concatAll (cs.map line) ++ "\n", none) ∧
      ∀ c ∈ cs,
        (line c).data.take (longestTarget cs + 5) =
          ("  " ++ c.Target ++ spaces (longestTarget cs + 2 - c.Target.length) ++ " ").data ∧
        (line c).data.drop (longestTarget cs + 5) = (firstLine c.Value ++ "\n").data := by
  refine ⟨(sortSort (commentsOf nodes)).filter fun c => c.Target ≠ "", _,
    (sorted_qualifying nodes).1, OutputAllShort_eq ParseRecursive r w nodes h, ?_⟩
  intro c hc
  have h1 := len_le_longestTarget hc
  have h2 := length_le_len c.Target
  generalize longestTarget ((sortSort (commentsOf nodes)).filter fun c => c.Target ≠ "") = W
    at h1 ⊢
  have hlen : (' ' :: ' ' :: (c.Target.data ++ (spaces (W + 2 - c.Target.length)).data
      ++ [' '])).length = W + 5 := by
    have hs : (spaces (W + 2 - c.Target.length)).data.length = W + 2 - c.Target.length :=
      spaces_length _
    have h3 : c.Target.data.length = c.Target.length := rfl
    simp only [List.length_cons, List.length_append, hs, h3, List.length_nil]
    omega
  have hdata : ("  " ++ (c.Target ++ spaces (W + 2 - c.Target.length)) ++ " " ++
        firstLine c.Value ++ "\n").data =
      (' ' :: ' ' :: (c.Target.data ++ (spaces (W + 2 - c.Target.length)).data ++ [' '])) ++
        (firstLine c.Value ++ "\n").data := by
    simp [String.data_append]
  have hpre : ("  " ++ c.Target ++ spaces (W + 2 - c.Target.length) ++ " ").data =
      ' ' :: ' ' :: (c.Target.data ++ (spaces (W + 2 - c.Target.length)).data ++ [' ']) := by
    simp [String.data_append]
  rw [hdata, hpre]
  exact ⟨List.take_left' hlen, List.drop_left' hlen⟩

/-- Witness of C9, amended: the comments `build` and `clean`. -/
theorem OutputAllShort_offset_witness :
    parseBuildClean "" "/usr/local/include" = Except.ok buildClean ∧
      ∃ (cs : List Comment) (line : Comment → String),
        cs.Perm ((commentsOf buildClean).filter fun c => c.Target ≠ "") ∧
        OutputAllShort parseBuildClean "" "" =
          ("" ++ "\n" ++ concatAll (cs.map line) ++ "\n", none) ∧
        ∀ c ∈ cs,
          (line c).data.take (longestTarget cs + 5) =
            ("  " ++ c.Target ++ spaces (longestTarget cs + 2 - c.Target.length) ++ " ").data ∧
          (line c).data.drop (longestTarget cs + 5) = (firstLine c.Value ++ "\n").data :=
  ⟨rfl, OutputAllShort_offset parseBuildClean "" "" buildClean rfl⟩

/-- Counterexample to C9 as stated: for the comments `build` and `clean` the
width is 5, and in the line of `build` the text from offset `5 + 2` is not
the first line of the value; that begins at offset `5 + 5`. -/
theorem OutputAllShort_offset_counterexample :
    OutputAllShort parseBuildClean "" "" =
        ("\n" ++ "  build   Builds the project.\n" ++ "  clean   Removes artifacts.\n" ++ "\n",
          none) ∧
      longestTarget (commentsOf buildClean) = 5 ∧
      "  build   Builds the project.\n".data.drop (5 + 2) ≠
        (firstLine "Builds the project.\nSee docs." ++ "\n").data ∧
      "  build   Builds the project.\n".data.drop (5 + 5) =
        (firstLine "Builds the project.\nSee docs." ++ "\n").data := by
  decide

/-- C10, amended: for at most twelve comments, the comments with equal target
keep their relative input order in the collection returned by `getComments`. -/
theorem getComments_stable (ParseRecursive : Parser) (r : String) (nodes : List Node)
    (h : ParseRecursive r "/usr/local/include" = Except.ok nodes)
    (hn : (commentsOf nodes).length ≤ 12) :
    ∃ cs : List Comment,
      getComments ParseRecursive r = Except.ok cs ∧
      ∀ t : String, (cs.filter fun c => c.Target = t) =
        (commentsOf nodes).filter fun c => c.Target = t :=
  ⟨sortSort (commentsOf nodes), getComments_ok ParseRecursive r nodes h,
    fun t => sortSort_stable_small (commentsOf nodes) hn t⟩

/-- Witness of C10, amended: two comments for the target `a`. -/
theorem getComments_stable_witness :
    parseTwoA "" "/usr/local/include" = Except.ok (twoA.map Node.comment) ∧
      (commentsOf (twoA.map Node.comment)).length ≤ 12 ∧
      ∃ cs : List Comment,
        getComments parseTwoA "" = Except.ok cs ∧
        ∀ t : String, (cs.filter fun c => c.Target = t) =
          (commentsOf (twoA.map Node.comment)).filter fun c => c.Target = t :=
  ⟨rfl, by decide, getComments_stable parseTwoA "" (twoA.map Node.comment) rfl (by decide)⟩

/-- Counterexample to C10 as stated: of thirteen comments, eleven of them for
the target `a`, the sixth comment of `a` comes first among the comments of `a`
in the collection returned by `getComments`, and the first one comes last. -/
theorem getComments_stable_counterexample :
    getComments parseTies "" =
        Except.ok [⟨"", "12"⟩, ⟨"a", "6"⟩, ⟨"a", "2"⟩, ⟨"a", "3"⟩, ⟨"a", "4"⟩, ⟨"a", "5"⟩,
          ⟨"a", "7"⟩, ⟨"a", "8"⟩, ⟨"a", "9"⟩, ⟨"a", "10"⟩, ⟨"a", "11"⟩, ⟨"a", "1"⟩,
          ⟨"b", "0"⟩] ∧
      (commentsOf tieNodes).filter (fun c => c.Target = "a") =
        [⟨"a", "1"⟩, ⟨"a", "2"⟩, ⟨"a", "3"⟩, ⟨"a", "4"⟩, ⟨"a", "5"⟩, ⟨"a", "6"⟩, ⟨"a", "7"⟩,
          ⟨"a", "8"⟩, ⟨"a", "9"⟩, ⟨"a", "10"⟩, ⟨"a", "11"⟩] ∧
      ([⟨"", "12"⟩, ⟨"a", "6"⟩, ⟨"a", "2"⟩, ⟨"a", "3"⟩, ⟨"a", "4"⟩, ⟨"a", "5"⟩,
          ⟨"a", "7"⟩, ⟨"a", "8"⟩, ⟨"a", "9"⟩, ⟨"a", "10"⟩, ⟨"a", "11"⟩, ⟨"a", "1"⟩,
          ⟨"b", "0"⟩] : List Comment).filter (fun c => c.Target = "a") ≠
        (commentsOf tieNodes).filter (fun c => c.Target = "a") :=
  ⟨by
    have : sortSort (commentsOf tieNodes) =
        [⟨"", "12"⟩, ⟨"a", "6"⟩, ⟨"a", "2"⟩, ⟨"a", "3"⟩, ⟨"a", "4"⟩, ⟨"a", "5"⟩,
          ⟨"a", "7"⟩, ⟨"a", "8"⟩, ⟨"a", "9"⟩, ⟨"a", "10"⟩, ⟨"a", "11"⟩, ⟨"a", "1"⟩,
          ⟨"b", "0"⟩] := by decide
    rw [getComments_ok parseTies "" tieNodes rfl, this], by decide, by decide⟩

/-! ## `targetWidth`, `firstLine` and `indent` -/

theorem longestTarget_attained :
    ∀ (cs : List Comment), cs ≠ [] → ∃ c ∈ cs, len c.Target = longestTarget cs := by
  intro cs
  induction cs with
  | nil => intro h; exact absurd rfl h
  | cons c cs ih =>
    intro _
    simp only [longestTarget, List.map_cons, List.foldr_cons]
    by_cases hcs : cs = []
    · subst hcs
      exact ⟨c, List.mem_cons_self _ _, by simp⟩
    · obtain ⟨d, hd, hlen⟩ := ih hcs
      simp only [longestTarget] at hlen
      by_cases hle : len c.Target ≤ List.foldr max 0 (cs.map fun c => len c.Target)
      · exact ⟨d, List.mem_cons_of_mem _ hd, by rw [hlen]; omega⟩
      · exact ⟨c, List.mem_cons_self _ _, by omega⟩

theorem len_pos_of_ne_empty (s : String) (h : s ≠ "") : 0 < len s := by
  have h1 := length_le_len s
  have h2 : s.length ≠ 0 := by
    intro h0
    apply h
    cases s with
    | mk l =>
      have : l = [] := List.length_eq_zero.1 h0
      rw [this]
  omega

/-- C11: `targetWidth`, computed over all comments, is the greatest length of
a target among the comments with a non-empty target, and is 0 when there are
none; it bounds the length of every target and is attained by a comment with
a non-empty target whenever there is one. -/
theorem targetWidth_spec (comments : List Comment) :
    targetWidth comments = longestTarget (comments.filter fun c => c.Target ≠ "") ∧
      ((comments.filter fun c => c.Target ≠ "") = [] → targetWidth comments = 0) ∧
      (∀ c ∈ comments, len c.Target ≤ targetWidth comments) ∧
      ((comments.filter fun c => c.Target ≠ "") ≠ [] →
        ∃ c ∈ comments, c.Target ≠ "" ∧ len c.Target = targetWidth comments) := by
  have h1 : targetWidth comments = longestTarget (comments.filter fun c => c.Target ≠ "") := by
    rw [targetWidth_eq, longestTarget_filter]
  refine ⟨h1, ?_, ?_, ?_⟩
  · intro h
    rw [h1, h]
    rfl
  · intro c hc
    rw [targetWidth_eq]
    exact len_le_longestTarget hc
  · intro h
    obtain ⟨c, hc, hlen⟩ := longestTarget_attained _ h
    rw [h1]
    have hm := List.mem_filter.1 hc
    exact ⟨c, hm.1, by simpa using hm.2, hlen⟩

/-- Witness of C11: the comments of the nodes `withFloating`, of width 5. -/
theorem targetWidth_spec_witness :
    targetWidth (commentsOf withFloating) = 5 ∧
      targetWidth (commentsOf withFloating) =
        longestTarget ((commentsOf withFloating).filter fun c => c.Target ≠ "") ∧
      (∀ c ∈ commentsOf withFloating, len c.Target ≤ targetWidth (commentsOf withFloating)) :=
  ⟨by decide, (targetWidth_spec (commentsOf withFloating)).1,
    (targetWidth_spec (commentsOf withFloating)).2.2.1⟩

theorem splitChars_cons (sep : Char) (l : List Char) :
    splitChars sep l =
      l.takeWhile (fun c => decide (c ≠ sep)) :: (splitChars sep l).tail := by
  induction l with
  | nil => rfl
  | cons c cs ih =>
    by_cases hc : c = sep
    · simp [splitChars, hc]
    · simp only [splitChars, hc, if_false]
      rw [ih]
      simp [hc]

theorem Split_cons (s : String) (sep : Char) :
    Split s sep = String.mk (s.data.takeWhile fun c => decide (c ≠ sep)) ::
      ((splitChars sep s.data).tail.map String.mk) := by
  unfold Split
  rw [splitChars_cons]
  simp

theorem firstLine_eq (s : String) :
    firstLine s = String.mk (s.data.takeWhile fun c => decide (c ≠ '\n')) := by
  unfold firstLine
  rw [Split_cons]
  rfl

theorem takeWhile_ne_not_mem (sep : Char) (l : List Char) :
    sep ∉ l.takeWhile (fun c => decide (c ≠ sep)) := by
  intro h
  have := List.mem_takeWhile_imp h
  simp at this

theorem takeWhile_ne_of_not_mem (sep : Char) (l : List Char) (h : sep ∉ l) :
    l.takeWhile (fun c => decide (c ≠ sep)) = l := by
  rw [List.takeWhile_eq_self_iff]
  intro c hc
  have : c ≠ sep := fun e => h (e ▸ hc)
  simpa using this

theorem dropWhile_ne_form (sep : Char) (l : List Char) :
    l.dropWhile (fun c => decide (c ≠ sep)) = [] ∨
      ∃ rest, l.dropWhile (fun c => decide (c ≠ sep)) = sep :: rest := by
  induction l with
  | nil => exact Or.inl rfl
  | cons c cs ih =>
    by_cases hc : c = sep
    · right
      exact ⟨cs, by simp [List.dropWhile_cons, hc]⟩
    · simpa [List.dropWhile_cons, hc] using ih

/-- C12: `firstLine(s)` is the part of `s` before the first line break: `s`
is `firstLine(s)`, or `firstLine(s)` followed by a line break and a rest, and
`firstLine(s)` has no line break; without a line break in `s` it is `s`; the
first line of `a\nb\nc` is `a`. -/
theorem firstLine_spec (s : String) :
    (s = firstLine s ∨ ∃ rest : String, s = firstLine s ++ "\n" ++ rest) ∧
      '\n' ∉ (firstLine s).data ∧
      ('\n' ∉ s.data → firstLine s = s) ∧
      firstLine "a\nb\nc" = "a" := by
  refine ⟨?_, ?_, ?_, by decide⟩
  · have hsplit := List.takeWhile_append_dropWhile (fun c => decide (c ≠ '\n')) s.data
    rcases dropWhile_ne_form '\n' s.data with h | ⟨rest, h⟩
    · left
      rw [h, List.append_nil] at hsplit
      rw [firstLine_eq, hsplit]
    · right
      refine ⟨String.mk rest, ?_⟩
      rw [h] at hsplit
      rw [firstLine_eq]
      apply String.ext
      have hd : (String.mk (s.data.takeWhile fun c => decide (c ≠ '\n')) ++ "\n" ++
          String.mk rest).data =
          (s.data.takeWhile fun c => decide (c ≠ '\n')) ++ '\n' :: rest := by
        simp [String.data_append]
      rw [hd]
      exact hsplit.symm
  · rw [firstLine_eq]
    exact takeWhile_ne_not_mem '\n' s.data
  · intro h
    rw [firstLine_eq, takeWhile_ne_of_not_mem '\n' s.data h]

/-- C18: splitting `s` at the line breaks yields at least one element, so
the index `[0]` of `firstLine` is in range, also for the empty string and for
strings that start or end with a line break. -/
theorem firstLine_total (s : String) :
    1 ≤ (Split s '\n').length ∧
      (Split s '\n')[0]? = some (firstLine s) ∧
      Split "" '\n' = [""] ∧
      Split "\na" '\n' = ["", "a"] ∧
      Split "a\n" '\n' = ["a", ""] := by
  refine ⟨?_, ?_, by decide, by decide, by decide⟩
  · rw [Split_cons]
    simp
  · rw [firstLine_eq, Split_cons]
    simp

theorem splitChars_exists (sep : Char) (l : List Char) :
    ∃ hd tl, splitChars sep l = hd :: tl :=
  ⟨_, _, splitChars_cons sep l⟩

theorem splitChars_cons_sep (sep : Char) (cs : List Char) :
    splitChars sep (sep :: cs) = [] :: splitChars sep cs := by
  simp [splitChars]

theorem splitChars_cons_ne (sep c : Char) (cs : List Char) (h : c ≠ sep) :
    splitChars sep (c :: cs) =
      (c :: (splitChars sep cs).headD []) :: (splitChars sep cs).tail := by
  obtain ⟨hd, tl, hs⟩ := splitChars_exists sep cs
  simp [splitChars, h, hs]

theorem splitChars_append_of_not_mem (sep : Char) (r : List Char) :
    ∀ (p : List Char), sep ∉ p →
      splitChars sep (p ++ r) = (p ++ (splitChars sep r).headD []) :: (splitChars sep r).tail := by
  intro p
  induction p with
  | nil =>
    intro _
    obtain ⟨hd, tl, h⟩ := splitChars_exists sep r
    simp [h]
  | cons c p ih =>
    intro hp
    have hc : c ≠ sep := fun e => hp (e ▸ List.mem_cons_self _ _)
    have hp' : sep ∉ p := fun e => hp (List.mem_cons_of_mem _ e)
    rw [List.cons_append, splitChars_cons_ne sep c _ hc, ih hp']
    simp

theorem splitChars_replace (ind : List Char) (hind : '\n' ∉ ind) :
    ∀ (l p : List Char), '\n' ∉ p →
      splitChars '\n' (p ++ l.flatMap fun c => if c = '\n' then '\n' :: ind else [c]) =
        (p ++ (splitChars '\n' l).headD []) :: (splitChars '\n' l).tail.map (ind ++ ·) := by
  intro l
  induction l with
  | nil =>
    intro p hp
    have := splitChars_append_of_not_mem '\n' [] p hp
    simpa [splitChars] using this
  | cons c l ih =>
    intro p hp
    obtain ⟨hd, tl, h⟩ := splitChars_exists '\n' l
    by_cases hc : c = '\n'
    · subst hc
      simp only [List.flatMap_cons, if_true]
      rw [splitChars_append_of_not_mem '\n' _ p hp, List.cons_append, splitChars_cons_sep,
        splitChars_cons_sep, ih ind hind, h]
      simp
    · simp only [List.flatMap_cons, hc, if_false]
      have hp' : '\n' ∉ p ++ [c] := by
        intro hm
        rcases List.mem_append.1 hm with h1 | h1
        · exact hp h1
        · exact hc (List.mem_singleton.1 h1).symm
      have := ih (p ++ [c]) hp'
      simp only [List.append_assoc, List.singleton_append] at this
      rw [List.singleton_append, this, splitChars_cons_ne '\n' c l hc, h]
      simp

theorem Replace_data (s : String) (old : Char) (new : String) :
    (Replace s old new).data = s.data.flatMap fun c => if c = old then new.data else [c] :=
  rfl

theorem indent_eq (s : String) : indent s = "  " ++ Replace s '\n' "\n  " := by
  apply String.ext
  simp only [indent, Replace_data, String.data_append, List.flatMap_append]
  rfl

theorem Split_indent (s : String) :
    Split (indent s) '\n' = (Split s '\n').map fun line => "  " ++ line := by
  have h := splitChars_replace [' ', ' '] (by decide) s.data [' ', ' '] (by decide)
  have hd : (indent s).data =
      [' ', ' '] ++ s.data.flatMap fun c => if c = '\n' then '\n' :: [' ', ' '] else [c] := by
    rw [indent_eq]
    rfl
  obtain ⟨hd', tl, hs⟩ := splitChars_exists '\n' s.data
  unfold Split
  rw [hd, h, hs]
  simp only [List.headD_cons, List.tail_cons, List.map_cons, List.map_map]
  congr 1

theorem indent_indent_eq (s : String) :
    indent (indent s) = "    " ++ Replace s '\n' "\n    " := by
  apply String.ext
  rw [indent_eq, indent_eq]
  simp only [Replace_data, String.data_append, List.flatMap_append, List.flatMap_assoc]
  have hf : (fun c : Char =>
      (if c = '\n' then "\n  ".data else [c]).flatMap
        fun c => if c = '\n' then "\n  ".data else [c]) =
      fun c => if c = '\n' then "\n    ".data else [c] := by
    funext c
    by_cases hc : c = '\n'
    · subst hc; decide
    · simp [hc]
  rw [hf]
  rfl

theorem Split_indent_indent (s : String) :
    Split (indent (indent s)) '\n' = (Split s '\n').map fun line => "    " ++ line := by
  rw [Split_indent, Split_indent, List.map_map]
  congr 1

/-- C13: `indent(s)` is two spaces followed by `s` with every line break
replaced by a line break and two spaces; splitting it at the line breaks
yields the lines of `s`, in order and in the same number, each after two
spaces. -/
theorem indent_spec (s : String) :
    indent s = "  " ++ Replace s '\n' "\n  " ∧
      Split (indent s) '\n' = (Split s '\n').map (fun line => "  " ++ line) ∧
      (Split (indent s) '\n').length = (Split s '\n').length :=
  ⟨indent_eq s, Split_indent s, by rw [Split_indent, List.length_map]⟩

/-- C14: `indent(indent(s))` is four spaces followed by `s` with every line
break replaced by a line break and four spaces, so every line of `s` comes
after four spaces; `indent(indent("x"))` is `x` after four spaces. -/
theorem indent_indent_spec (s : String) :
    indent (indent s) = "    " ++ Replace s '\n' "\n    " ∧
      Split (indent (indent s)) '\n' = (Split s '\n').map (fun line => "    " ++ line) ∧
      indent (indent "x") = "    x" :=
  ⟨indent_indent_eq s, Split_indent_indent s, by decide⟩

/-! ## Failure, input order and line count -/

/-- C15: when the parser fails, none of the three functions writes anything:
the writer is left as it was. -/
theorem Output_failure_writes_nothing (ParseRecursive : Parser) (r w targetName : String)
    (e : GoError) (h : ParseRecursive r "/usr/local/include" = Except.error e) :
    (OutputAllShort ParseRecursive r w).1 = w ∧
      (OutputAllLong ParseRecursive r w).1 = w ∧
      (OutputTargetLong ParseRecursive r w targetName).1 = w := by
  simp only [OutputAllShort, OutputAllLong, OutputTargetLong,
    getComments_error ParseRecursive r e h, and_self]

/-- Witness of C15: a parser that fails, and a writer that holds `text`. -/
theorem Output_failure_writes_nothing_witness :
    parseFailure "" "/usr/local/include" = Except.error (GoError.failure "syntax error") ∧
      (OutputAllShort parseFailure "" "text").1 = "text" ∧
      (OutputAllLong parseFailure "" "text").1 = "text" ∧
      (OutputTargetLong parseFailure "" "text" "build").1 = "text" :=
  ⟨rfl, Output_failure_writes_nothing parseFailure "" "text" "build" _ rfl⟩

theorem sortSort_perm_eq {cs ds : List Comment} (hp : cs.Perm ds)
    (hn : (cs.map fun c => c.Target).Nodup) : sortSort cs = sortSort ds := by
  have h1 := sortSort_spec cs
  have h2 := sortSort_spec ds
  exact sorted_unique (h1.1.trans (hp.trans h2.1.symm)) h1.2 h2.2
    ((h1.1.map _).nodup_iff.2 hn)

/-- C16: for two node sequences that are permutations of one another and
whose comments have pairwise distinct targets, `OutputAllShort` writes the
same text for both, and so does `OutputAllLong`. -/
theorem Output_order_independent (ParseRecursive ParseRecursive' : Parser) (r r' w : String)
    (nodes nodes' : List Node)
    (h : ParseRecursive r "/usr/local/include" = Except.ok nodes)
    (h' : ParseRecursive' r' "/usr/local/include" = Except.ok nodes')
    (hperm : nodes.Perm nodes')
    (hd : ((commentsOf nodes).map fun c => c.Target).Nodup) :
    OutputAllShort ParseRecursive r w = OutputAllShort ParseRecursive' r' w ∧
      OutputAllLong ParseRecursive r w = OutputAllLong ParseRecursive' r' w := by
  have hc : (commentsOf nodes).Perm (commentsOf nodes') := hperm.filterMap _
  have hs := sortSort_perm_eq hc hd
  rw [OutputAllShort_eq ParseRecursive r w nodes h,
    OutputAllShort_eq ParseRecursive' r' w nodes' h',
    OutputAllLong_eq ParseRecursive r w nodes h,
    OutputAllLong_eq ParseRecursive' r' w nodes' h', hs]
  exact ⟨rfl, rfl⟩

/-- Witness of C16: the comments `build` and `clean` in both orders. -/
theorem Output_order_independent_witness :
    parseBuildClean "" "/usr/local/include" = Except.ok buildClean ∧
      parseCleanBuild "" "/usr/local/include" = Except.ok cleanBuild ∧
      buildClean.Perm cleanBuild ∧
      ((commentsOf buildClean).map fun c => c.Target).Nodup ∧
      OutputAllShort parseBuildClean "" "" = OutputAllShort parseCleanBuild "" "" ∧
      OutputAllLong parseBuildClean "" "" = OutputAllLong parseCleanBuild "" "" :=
  ⟨rfl, rfl, List.Perm.swap _ _ _, by decide,
    Output_order_independent parseBuildClean parseCleanBuild "" "" "" buildClean cleanBuild
      rfl rfl (List.Perm.swap _ _ _) (by decide)⟩

theorem count_concatAll (line : Comment → String) :
    ∀ (cs : List Comment), (∀ c ∈ cs, (line c).data.count '\n' = 1) →
      (concatAll (cs.map line)).data.count '\n' = cs.length := by
  intro cs
  induction cs with
  | nil => intro _; rfl
  | cons c cs ih =>
    intro h
    simp only [List.map_cons, concatAll, String.data_append, List.count_append,
      List.length_cons]
    rw [h c (List.mem_cons_self _ _), ih (fun d hd => h d (List.mem_cons_of_mem _ hd))]
    omega

/-- C17: when no target contains a line break, the text written by
`OutputAllShort` has `n + 2` line breaks, where `n` is the number of comments
with a non-empty target: one line for each of them, whatever the number of
lines of its value. -/
theorem OutputAllShort_line_count (ParseRecursive : Parser) (r w : String) (nodes : List Node)
    (h : ParseRecursive r "/usr/local/include" = Except.ok nodes)
    (hnl : ∀ c ∈ commentsOf nodes, '\n' ∉ c.Target.data) :
    ∃ text : String,
      (OutputAllShort ParseRecursive r w).1 = w ++ text ∧
      text.data.count '\n' = ((commentsOf nodes).filter fun c => c.Target ≠ "").length + 2 := by
  rw [OutputAllShort_eq ParseRecursive r w nodes h]
  refine ⟨"\n" ++ concatAll (((sortSort (commentsOf nodes)).filter fun c => c.Target ≠ "").map
    fun c => "  " ++ (c.Target ++ spaces (longestTarget ((sortSort (commentsOf nodes)).filter
      fun c => c.Target ≠ "") + 2 - c.Target.length)) ++ " " ++
        firstLine c.Value ++ "\n") ++ "\n", ?_, ?_⟩
  · simp only [String.append_assoc]
  · have hq := sorted_qualifying nodes
    simp only [String.data_append, List.count_append]
    rw [count_concatAll]
    · rw [hq.1.length_eq]
      have h1 : "\n".data.count '\n' = 1 := by decide
      rw [h1]
      omega
    · intro c hc
      have hmem : c ∈ commentsOf nodes := (List.mem_filter.1 (hq.1.mem_iff.1 hc)).1
      have ht : c.Target.data.count '\n' = 0 := List.count_eq_zero.2 (hnl c hmem)
      have hf : (firstLine c.Value).data.count '\n' = 0 :=
        List.count_eq_zero.2 (firstLine_spec c.Value).2.1
      have hsp : ∀ n, (spaces n).data.count '\n' = 0 := by
        intro n
        apply List.count_eq_zero.2
        intro hm
        have := List.eq_of_mem_replicate hm
        exact absurd this (by decide)
      have h2 : "  ".data.count '\n' = 0 := by decide
      have h3 : " ".data.count '\n' = 0 := by decide
      have h1 : "\n".data.count '\n' = 1 := by decide
      simp only [String.data_append, List.count_append, ht, hf, hsp, h1, h2, h3]

/-- Witness of C17: the comments `build` and `clean`; the value of `build`
has two lines and the text four line breaks. -/
theorem OutputAllShort_line_count_witness :
    parseBuildClean "" "/usr/local/include" = Except.ok buildClean ∧
      (∀ c ∈ commentsOf buildClean, '\n' ∉ c.Target.data) ∧
      (∃ text : String,
        (OutputAllShort parseBuildClean "" "").1 = "" ++ text ∧
        text.data.count '\n' =
          ((commentsOf buildClean).filter fun c => c.Target ≠ "").length + 2) ∧
      (OutputAllShort parseBuildClean "" "").1.data.count '\n' = 4 :=
  ⟨rfl, by decide,
    OutputAllShort_line_count parseBuildClean "" "" buildClean rfl (by decide), by decide⟩

end Help
